import Mathlib

/-!
Verification of the BlockChain repository (Python) against its
natural-language specification.

The Python sources are shallowly embedded:

* `src/src/blockchain/block.py` — `Transaction`, `Block`
* `src/src/blockchain/blockchain.py` — `Blockchain` (chain state machine)
* `src/src/blockchain/merkle-tree.py` — `MerkleTree`
* `src/src/blockchain/wallet.py` — `Wallet` (address derivation/validation,
  balance, signature verification)
* `src/src/consensus/proof_of_work.py` — `ProofOfWork`
* `src/src/utils/crypto.py` — `hash_data` (SHA-256 of canonical data)

Modelling conventions:

* Python `float` monetary amounts and timestamps are modelled as `ℚ` (exact
  arithmetic; every concrete value used below is exactly representable).
* SHA-256 is implemented concretely (`Crypto.sha256Hex`) for closed
  counterexamples; structural theorems are stated for an arbitrary hash
  function `H`, which the concrete one instantiates.
* Python dicts (`pending_blocks`) are association lists in insertion order,
  matching the ordered dicts of CPython; Python sets of strings are lists used
  only through membership.
* `logger.*` calls are side effects out of scope for the spec and are dropped.
-/

namespace BlockChain

/-- A monetary / time quantity (Python `float`, modelled exactly). -/
abbrev Amount := ℚ

/-- Transaction record. The repository has two transaction dataclasses:
the one of block.py (sender, recipient, amount, signature, timestamp) and
the one of wallet.py (sender, recipient, amount, timestamp, nonce, fee, data,
signature).  This structure is their field-wise union; `block.py` code reads
only the fields it declares.  `signature = none` models Python `None`. -/
structure Transaction where
  sender : String
  recipient : String
  amount : Amount
  timestamp : Amount
  nonce : Nat := 0
  fee : Amount := 0
  dataField : Option String := none
  signature : Option String := none
deriving DecidableEq, Repr

instance : Inhabited Transaction :=
  ⟨{ sender := "", recipient := "", amount := 0, timestamp := 0 }⟩

/-- The hashable content of a block: every `Block` field except the stored
`hash` itself, exactly the dict built in `Block.calculate_hash`. -/
structure BlockContents where
  version : String
  timestamp : Amount
  previous_hash : String
  miner : String
  transactions : List Transaction
  nonce : Nat
  difficulty : Nat
  merkle_root : String
deriving DecidableEq, Repr

/-- A block as stored on the chain (`block.py`, class `Block`). -/
structure Block where
  version : String
  timestamp : Amount
  previous_hash : String
  miner : String
  transactions : List Transaction
  nonce : Nat
  difficulty : Nat
  merkle_root : String
  hash : String
deriving DecidableEq, Repr

instance : Inhabited Block :=
  ⟨{ version := "", timestamp := 0, previous_hash := "", miner := "",
     transactions := [], nonce := 0, difficulty := 0, merkle_root := "",
     hash := "" }⟩

/-- The content record of a block (drops the stored `hash`). -/
def Block.contents (b : Block) : BlockContents :=
  { version := b.version, timestamp := b.timestamp,
    previous_hash := b.previous_hash, miner := b.miner,
    transactions := b.transactions, nonce := b.nonce,
    difficulty := b.difficulty, merkle_root := b.merkle_root }

/-- The string of `d` ASCII `'0'` characters (`'0' * d` in Python). -/
def zeros (d : Nat) : String := String.mk (List.replicate d '0')

/-- Python `str.startswith`, as a character-prefix test. -/
def strStartsWith (s pre : String) : Bool := pre.data.isPrefixOf s.data

section AbstractHash

/-!
Structural theorems are stated over an arbitrary hash function:

* `H : BlockContents → String` models the `hash_data(block_dict)` of
  `Block.calculate_hash`;
* `HD : Transaction → String` models `hash_data(tx.to_dict())`, the Merkle
  leaf hash of a transaction;
* `HS : String → String` models `hash_data` on strings;
* `HT : Transaction → String` models `Transaction.calculate_hash`
  (`wallet.py`: SHA-256 of the canonical dict with the signature removed).
-/

variable (H : BlockContents → String) (HD : Transaction → String)
variable (HS : String → String) (HT : Transaction → String)

/-- Model of `Block.calculate_hash`: hash of the content dict. -/
def Block.calcHash (H : BlockContents → String) (b : Block) : String :=
  H b.contents

/-- One bottom-up Merkle level as in the loop body of
`Block._calculate_merkle_root`: after padding, pair-hash adjacent nodes. -/
def merkleCombine (HS : String → String) : List String → List String
  | a :: b :: rest => HS (a ++ b) :: merkleCombine HS rest
  | _ => []

/-- Padding step: `if len % 2 == 1: append last` (Python `nodes[-1]` is total
on the non-empty lists this is applied to; `getLastD` supplies a default). -/
def merklePad (l : List String) : List String :=
  if l.length % 2 = 1 then l ++ [l.getLastD ""] else l

/-- The `while len(leaves) > 1` loop shared by
`Block._calculate_merkle_root` and `MerkleTree._build_tree`: pad to even
length, combine pairs, repeat; return the sole survivor.  The `fuel`
argument makes the recursion structural; each iteration strictly shrinks
the level, so fuel `l.length` (as supplied by `merkleLevels`) is enough and
the `fuel = 0` arm is never reached. -/
def merkleLevelsF (HS : String → String) : Nat → List String → String
  | _, [] => ""
  | _, [a] => a
  | 0, a :: _ :: _ => a
  | fuel + 1, a :: b :: rest =>
      merkleLevelsF HS fuel (merkleCombine HS (merklePad (a :: b :: rest)))

/-- Root of the bottom-up level fold over a list of leaf hashes. -/
def merkleLevels (HS : String → String) (l : List String) : String :=
  merkleLevelsF HS l.length l

/-- Model of `Block._calculate_merkle_root` (block.py, lines 49-59):
empty list ↦ `hash_data("empty_block")`; otherwise fold levels over the
leaf hashes `hash_data(tx.to_dict())`. -/
def blockMerkleRoot (HS : String → String) (HD : Transaction → String)
    (txs : List Transaction) : String :=
  if txs = [] then HS "empty_block"
  else merkleLevels HS (txs.map HD)

/-- Model of `MerkleTree._build_tree` (merkle-tree.py, lines 18-44), root hash only:
empty list ↦ `hash_data("empty_tree")`; otherwise the identical level fold.
The `MerkleNode` left/right pointers carry no information beyond the hashes
and are dropped. -/
def merkleTreeRoot (HS : String → String) (HD : Transaction → String)
    (txs : List Transaction) : String :=
  if txs = [] then HS "empty_tree"
  else merkleLevels HS (txs.map HD)

/-- Relative position of a proof sibling (the `left` / `right` strings in
the Python proof dicts). -/
inductive Side
  | left
  | right
deriving DecidableEq, Repr

/-- One entry of a Merkle proof: a dict with a `hash` and a `position`. -/
structure ProofStep where
  hash : String
  position : Side
deriving DecidableEq, Repr

/-- The leaf-search loop of `MerkleTree.get_proof`: first index whose hash
equals the target, else `none` (Python `-1`). -/
def findLeaf (target : String) : List String → Option Nat
  | [] => none
  | h :: t => if h = target then some 0 else (findLeaf target t).map (· + 1)

/-- The `while len(nodes) > 1` loop of `MerkleTree.get_proof`
(merkle-tree.py, lines 72-94): at each level, after padding, record the
sibling of the current index (right sibling when the index is even, left
when odd), then ascend with index `i / 2`.  Fueled as `merkleLevelsF`. -/
def getProofF (HS : String → String) : Nat → List String → Nat → List ProofStep
  | _, [], _ => []
  | _, [_], _ => []
  | 0, _ :: _ :: _, _ => []
  | fuel + 1, a :: b :: rest, i =>
      let ns := merklePad (a :: b :: rest)
      { hash := ns.getD (if i % 2 = 0 then i + 1 else i - 1) "",
        position := if i % 2 = 0 then Side.right else Side.left }
        :: getProofF HS fuel (merkleCombine HS ns) (i / 2)

/-- Model of `MerkleTree.get_proof` (merkle-tree.py, lines 50-96).  The tree always
has a root after `_build_tree`, so the `if not self.root` guard is vacuous;
the proof walk starts from the first leaf whose hash equals the target. -/
def getProof (HS : String → String) (HD : Transaction → String)
    (txs : List Transaction) (transaction_hash : String) : List ProofStep :=
  let leaves := txs.map HD
  match findLeaf transaction_hash leaves with
  | none => []
  | some i => getProofF HS leaves.length leaves i

/-- The verification fold of `MerkleTree.verify_proof`: compose
`hash(sibling + current)` for a `left` sibling and
`hash(current + sibling)` for a `right` one. -/
def foldSteps (HS : String → String) (start : String)
    (proof : List ProofStep) : String :=
  proof.foldl
    (fun cur step =>
      match step.position with
      | Side.left => HS (step.hash ++ cur)
      | Side.right => HS (cur ++ step.hash)) start

/-- Model of `MerkleTree.verify_proof` (merkle-tree.py, lines 98-112). -/
def verifyProof (HS : String → String) (transaction_hash : String)
    (proof : List ProofStep) (root_hash : String) : Bool :=
  foldSteps HS transaction_hash proof == root_hash

end AbstractHash

namespace Crypto

/-!
Concrete SHA-256 (FIPS 180-4), over byte lists (`Nat`s below 256), with
32-bit words as `Nat`s reduced mod `2^32`.  This instantiates the abstract
hash parameters for the closed counterexamples and witnesses.  It models
`hashlib.sha256` as used by the `hash_data` of crypto.py.
-/

/-- Reduce to a 32-bit word. -/
def w32 (n : Nat) : Nat := n % 4294967296

/-- Right-rotation of a 32-bit word by `k` (for `x < 2^32`, `0 < k < 32`). -/
def rotr (k x : Nat) : Nat := x / 2 ^ k + x % 2 ^ k * 2 ^ (32 - k)

/-- Logical right shift. -/
def shr (k x : Nat) : Nat := x / 2 ^ k

def bsig0 (x : Nat) : Nat := rotr 2 x ^^^ rotr 13 x ^^^ rotr 22 x
def bsig1 (x : Nat) : Nat := rotr 6 x ^^^ rotr 11 x ^^^ rotr 25 x
def ssig0 (x : Nat) : Nat := rotr 7 x ^^^ rotr 18 x ^^^ shr 3 x
def ssig1 (x : Nat) : Nat := rotr 17 x ^^^ rotr 19 x ^^^ shr 10 x
def ch (x y z : Nat) : Nat := (x &&& y) ^^^ ((x ^^^ 4294967295) &&& z)
def maj (x y z : Nat) : Nat := (x &&& y) ^^^ (x &&& z) ^^^ (y &&& z)

/-- The 64 SHA-256 round constants. -/
def K : List Nat :=
  [1116352408, 1899447441, 3049323471, 3921009573, 961987163,
   1508970993, 2453635748, 2870763221, 3624381080, 310598401,
   607225278, 1426881987, 1925078388, 2162078206, 2614888103,
   3248222580, 3835390401, 4022224774, 264347078, 604807628,
   770255983, 1249150122, 1555081692, 1996064986, 2554220882,
   2821834349, 2952996808, 3210313671, 3336571891, 3584528711,
   113926993, 338241895, 666307205, 773529912, 1294757372,
   1396182291, 1695183700, 1986661051, 2177026350, 2456956037,
   2730485921, 2820302411, 3259730800, 3345764771, 3516065817,
   3600352804, 4094571909, 275423344, 430227734, 506948616,
   659060556, 883997877, 958139571, 1322822218, 1537002063,
   1747873779, 1955562222, 2024104815, 2227730452, 2361852424,
   2428436474, 2756734187, 3204031479, 3329325298]

/-- The initial hash value. -/
def H0 : List Nat :=
  [1779033703, 3144134277, 1013904242, 2773480762,
   1359893119, 2600822924, 528734635, 1541459225]

/-- Encode `n` as `k` big-endian bytes. -/
def natToBytesBE (k n : Nat) : List Nat :=
  (List.range k).map (fun i => n / 2 ^ (8 * (k - 1 - i)) % 256)

/-- SHA-256 message padding: append `0x80`, zeros to 56 mod 64, and the
8-byte big-endian bit length. -/
def sha256Pad (msg : List Nat) : List Nat :=
  msg ++ [128] ++ List.replicate ((119 - msg.length % 64) % 64) 0
      ++ natToBytesBE 8 (8 * msg.length)

/-- Group bytes into big-endian 32-bit words. -/
def bytesToWords : List Nat → List Nat
  | b0 :: b1 :: b2 :: b3 :: r =>
      (((b0 * 256 + b1) * 256 + b2) * 256 + b3) :: bytesToWords r
  | _ => []

/-- Message-schedule extension of a 16-word block to 64 words. -/
def schedule (w : List Nat) : List Nat :=
  (List.range 48).foldl
    (fun acc _ =>
      let n := acc.length
      acc ++ [w32 (ssig1 (acc.getD (n - 2) 0) + acc.getD (n - 7) 0
        + ssig0 (acc.getD (n - 15) 0) + acc.getD (n - 16) 0)]) w

/-- One compression round. -/
def round (st : Nat × Nat × Nat × Nat × Nat × Nat × Nat × Nat)
    (kw : Nat × Nat) : Nat × Nat × Nat × Nat × Nat × Nat × Nat × Nat :=
  let (a, b, c, d, e, f, g, h) := st
  let t1 := w32 (h + bsig1 e + ch e f g + kw.1 + kw.2)
  let t2 := w32 (bsig0 a + maj a b c)
  (w32 (t1 + t2), a, b, c, w32 (d + t1), e, f, g)

/-- Compress one 64-word schedule into the running hash. -/
def compress (hs ws : List Nat) : List Nat :=
  let a0 := hs.getD 0 0
  let b0 := hs.getD 1 0
  let c0 := hs.getD 2 0
  let d0 := hs.getD 3 0
  let e0 := hs.getD 4 0
  let f0 := hs.getD 5 0
  let g0 := hs.getD 6 0
  let h0 := hs.getD 7 0
  let (a, b, c, d, e, f, g, h) :=
    (K.zip ws).foldl round (a0, b0, c0, d0, e0, f0, g0, h0)
  [w32 (a0 + a), w32 (b0 + b), w32 (c0 + c), w32 (d0 + d),
   w32 (e0 + e), w32 (f0 + f), w32 (g0 + g), w32 (h0 + h)]

/-- Fold the compression over successive 16-word blocks.  The `fuel`
argument makes the recursion structural (so that the kernel evaluates it);
one unit of fuel per word is more than one per block, so the `fuel = 0` arm
is never reached from `sha256Hex`. -/
def sha256Words : Nat → List Nat → List Nat → List Nat
  | _, hs, [] => hs
  | 0, hs, _ => hs
  | fuel + 1, hs, w :: ws =>
      sha256Words fuel (compress hs (schedule ((w :: ws).take 16)))
        ((w :: ws).drop 16)

def hexDigits : List Char := "0123456789abcdef".data

/-- A 32-bit word as 8 lowercase hex characters. -/
def wordToHex (w : Nat) : List Char :=
  (List.range 8).map (fun i => hexDigits.getD (w / 2 ^ (4 * (7 - i)) % 16) '0')

/-- SHA-256 of a byte list, as a lowercase hex string
(`hashlib.sha256(data).hexdigest()`). -/
def sha256Hex (msg : List Nat) : String :=
  let ws := bytesToWords (sha256Pad msg)
  String.mk (((sha256Words ws.length H0 ws).map wordToHex).flatten)

/-- Model of the `hash_data` of crypto.py on a character string: UTF-8 encode, then
SHA-256 hex digest.  `Char.toNat` equals the UTF-8 byte exactly for the
ASCII strings this development hashes. -/
def hashString (s : String) : String := sha256Hex (s.data.map Char.toNat)

end Crypto

namespace Wallet

/-!
`wallet.py`: address derivation (`Wallet._generate_address`), address
validation (`Wallet._is_valid_address`), and signature verification
(`Wallet.verify_transaction`).

Byte strings are `List Nat` with entries below 256.  `_generate_address`
and `_is_valid_address` are parameterised by the byte-level digest
functions `sha256B` (`hashlib.sha256(·).digest()`) and `ripemd160B`
(`hashlib.new` with ripemd160); the theorems assume only their
output shapes (32 respectively 20 bytes), which the real digests satisfy.
-/

/-- The Base58 alphabet used by both derivation and validation. -/
def b58alphabet : List Char :=
  "123456789ABCDEFGHJKLMNPQRSTUVWXYZabcdefghijkmnopqrstuvwxyz".data

/-- Python big-endian `int.from_bytes`. -/
def bytesToNat (l : List Nat) : Nat := l.foldl (fun acc b => acc * 256 + b) 0

/-- Python `int.bit_length` as a halving loop; structural via fuel, with
`bitLength` supplying fuel `n + 1`, which always suffices (the loop runs
once per bit). -/
def bitLenF : Nat → Nat → Nat
  | 0, _ => 0
  | f + 1, n => if n = 0 then 0 else bitLenF f (n / 2) + 1

/-- Python `bit_length` of `n`. -/
def bitLength (n : Nat) : Nat := bitLenF (n + 1) n

/-- Python `str.index` on the alphabet: first index of `c`, `none` for the
`ValueError` of a character not in the alphabet. -/
def charIndex (c : Char) : List Char → Option Nat
  | [] => none
  | a :: t => if a = c then some 0 else (charIndex c t).map (· + 1)

/-- The Base58 decode loop of `_is_valid_address`:
`value = value * 58 + alphabet.index(char)` over the address characters;
`none` propagates the `ValueError` of an out-of-alphabet character. -/
def b58decodeVal (address : List Char) : Option Nat :=
  address.foldl
    (fun acc c =>
      match acc, charIndex c b58alphabet with
      | some v, some d => some (v * 58 + d)
      | _, _ => none) (some 0)

/-- The Base58 encode loop of `_generate_address`:
`while value: value, mod = divmod(value, 58); result = alphabet[mod] + result`.
Structural via fuel; one iteration per base-58 digit, and the 25-byte
values encoded here have fewer than 64 digits, so fuel 64 (supplied by
`generateAddress`) is never exhausted. -/
def b58encodeF : Nat → Nat → List Char
  | _, 0 => []
  | 0, _ => []
  | f + 1, v => b58encodeF f (v / 58) ++ [b58alphabet.getD (v % 58) '1']

/-- The leading-zero-byte loop of `_generate_address`: one `'1'` per
leading zero byte of the versioned hash, stopping at the first non-zero
byte. -/
def leadOnes : List Nat → List Char
  | [] => []
  | b :: r => if b = 0 then '1' :: leadOnes r else []

/-- Model of `Wallet._generate_address` (wallet.py, lines 52-88): SHA-256 of the
compressed public key, RIPEMD-160 of that, version byte `0x00`, 4-byte
double-SHA-256 checksum, Base58 with one `'1'` per leading zero byte. -/
def generateAddress (sha256B ripemd160B : List Nat → List Nat)
    (public_bytes : List Nat) : List Char :=
  let sha256_hash := sha256B public_bytes
  let ripemd160_hash := ripemd160B sha256_hash
  let versioned_hash := 0 :: ripemd160_hash
  let checksum := (sha256B (sha256B versioned_hash)).take 4
  let binary_address := versioned_hash ++ checksum
  leadOnes versioned_hash ++ b58encodeF 64 (bytesToNat binary_address)

/-- Model of `Wallet._is_valid_address` (wallet.py, lines 225-251): Base58-decode to
an integer, re-serialize with `value.to_bytes((value.bit_length()+7)//8)`,
require exactly 25 bytes, then check the 4-byte checksum.  Any exception
(`none` from the decode) yields `false` via the `except` clause. -/
def isValidAddress (sha256B : List Nat → List Nat)
    (address : List Char) : Bool :=
  match b58decodeVal address with
  | none => false
  | some value =>
    let binary_address := Crypto.natToBytesBE ((bitLength value + 7) / 8) value
    if binary_address.length ≠ 25 then false
    else
      let versioned_hash := binary_address.take (binary_address.length - 4)
      let checksum := binary_address.drop (binary_address.length - 4)
      checksum == (sha256B (sha256B versioned_hash)).take 4

/-- Python exception classes relevant to `Wallet.verify_transaction`.
`binascii.Error` is a subclass of `ValueError` and is subsumed by it. -/
inductive PyError
  | typeError
  | valueError
  | invalidSignature
  | otherError
deriving DecidableEq, Repr

/-- Python `base64.b64decode` on the signature: raises `TypeError` when the argument is
`None`; on a string, behaves as the abstract decoder `b64` (whose failures
are `ValueError`s in CPython). -/
def base64Decode (b64 : String → Except PyError (List Nat)) :
    Option String → Except PyError (List Nat)
  | none => Except.error PyError.typeError
  | some s => b64 s

/-- Model of `Wallet.verify_transaction` (wallet.py, lines 136-153), parameterised
by the cryptography-library primitives: `loadPem` for
`serialization.load_pem_public_key`, `b64` for `base64.b64decode` on
strings, `fromHex` for `bytes.fromhex`, `ecdsaVerify` for
`public_key.verify`, and `HT` for `Transaction.calculate_hash`.  The
`except (InvalidSignature, ValueError)` clause maps exactly those two
error classes to `False`; any other exception propagates. -/
def verifyTransaction {PubKey : Type}
    (loadPem : List Nat → Except PyError PubKey)
    (b64 : String → Except PyError (List Nat))
    (fromHex : String → Except PyError (List Nat))
    (ecdsaVerify : PubKey → List Nat → List Nat → Except PyError Unit)
    (HT : Transaction → String)
    (transaction : Transaction) (public_key_bytes : List Nat) :
    Except PyError Bool :=
  let body : Except PyError Bool := do
    let public_key ← loadPem public_key_bytes
    let signature ← base64Decode b64 transaction.signature
    let tx_hash ← fromHex (HT transaction)
    ecdsaVerify public_key signature tx_hash
    pure true
  match body with
  | Except.ok v => Except.ok v
  | Except.error e =>
      if e = PyError.invalidSignature ∨ e = PyError.valueError then
        Except.ok false
      else Except.error e

end Wallet


section Chain

/-!
`blockchain.py` (`Blockchain`) and `proof_of_work.py` (`ProofOfWork`),
embedded as a state machine.  Hash parameters as in the Merkle section;
additionally `HT : Transaction → String` models
`Transaction.calculate_hash`.  The Python `pending_blocks` dict is an
association list in insertion order (CPython dicts are ordered);
`known_transactions` is a list used only through membership.  The unused
`orphan_blocks` dict (written nowhere after `__init__`) is omitted.
-/

variable (H : BlockContents → String) (HS : String → String)
variable (HD : Transaction → String) (HT : Transaction → String)

/-- The `Block.__init__` constructor (block.py, lines 30-47).  The Python
`self.timestamp = timestamp or time.time()` treats both `None` and `0` as
falsy, substituting the current time `now`. -/
def mkBlock (miner : String) (transactions : List Transaction)
    (previous_hash : String) (timestamp : Option Amount) (nonce : Nat)
    (difficulty : Nat) (now : Amount) : Block :=
  let ts : Amount :=
    match timestamp with
    | none => now
    | some t => if t = 0 then now else t
  let root := blockMerkleRoot HS HD transactions
  { version := "1.0", timestamp := ts, previous_hash := previous_hash,
    miner := miner, transactions := transactions, nonce := nonce,
    difficulty := difficulty, merkle_root := root,
    hash := H { version := "1.0", timestamp := ts,
                previous_hash := previous_hash, miner := miner,
                transactions := transactions, nonce := nonce,
                difficulty := difficulty, merkle_root := root } }

/-- Model of `Block.is_valid` (block.py, lines 101-109): stored hash equals the
recomputed hash, the hash has `difficulty` leading `'0'`s, and every entry
is a `Transaction` (true by construction in the typed embedding). -/
def Block.isValid (b : Block) : Bool :=
  if b.hash ≠ b.calcHash H then false
  else if ¬ strStartsWith b.hash (zeros b.difficulty) then false
  else true

/-- Model of `ProofOfWork.validate` (proof_of_work.py, lines 39-55), with
`self.target = '0' * difficulty` fixed at construction: recomputed hash
equals the stored hash and meets the target prefix. -/
def ProofOfWork.validate (difficulty : Nat) (b : Block) : Bool :=
  if b.calcHash H ≠ b.hash then false
  else if ¬ strStartsWith (b.calcHash H) (zeros difficulty) then false
  else true

/-- The nonce search of `ProofOfWork.mine` (proof_of_work.py, lines 23-34):
first nonce below `2^32` whose recomputed hash meets the target, if any.
(The `logger` calls, including the one reading the non-existent
`block.height` attribute, are outside the embedded semantics.) -/
def ProofOfWork.mineNonce (difficulty : Nat) (c : BlockContents) :
    Option Nat :=
  (List.range (2 ^ 32)).find?
    (fun n => strStartsWith (H { c with nonce := n }) (zeros difficulty))

/-- The `Blockchain` state: difficulty (shared with its `ProofOfWork`,
both fixed at construction), mempool, main chain, pending blocks, and the
known-transaction identity set. -/
structure ChainState where
  difficulty : Nat
  unconfirmed_transactions : List Transaction
  chain : List Block
  pending_blocks : List (String × Block)
  known_transactions : List String
deriving Repr

/-- The genesis transaction of `Blockchain.create_genesis_block`
(the block.py dataclass has no fee/nonce/data fields; the merged record
takes their neutral defaults). -/
def genesisTransaction : Transaction :=
  { sender := "0", recipient := "Genesis", amount := 0, timestamp := 0,
    signature := some "0" }

/-- The genesis block: `Block(miner="Genesis", transactions=[genesis_tx],
previous_hash="0"*64, timestamp=0, difficulty=d)`.  (Because `timestamp=0`
is falsy, the constructor substitutes the current time `now`.) -/
def genesisBlock (d : Nat) (now : Amount) : Block :=
  mkBlock H HS HD "Genesis" [genesisTransaction] (zeros 64) (some 0) 0 d now

/-- Model of the `Blockchain` constructor. -/
def Blockchain.init (d : Nat) (now : Amount) : ChainState :=
  { difficulty := d, unconfirmed_transactions := [],
    chain := [genesisBlock H HS HD d now], pending_blocks := [],
    known_transactions := [] }

/-- Model of `Blockchain.last_block` = `self.chain[-1]` (total on the non-empty
chains of reachable states). -/
def lastBlock (s : ChainState) : Block := s.chain.getLastD default

/-- Python `self.pending_blocks[k] = v`: ordered-dict update (replace in place if
the key exists, else append). -/
def dictSet (l : List (String × Block)) (k : String) (v : Block) :
    List (String × Block) :=
  if l.any (fun p => p.1 = k) then
    l.map (fun p => if p.1 = k then (k, v) else p)
  else l ++ [(k, v)]

/-- Python `del self.pending_blocks[k]` (the key is present whenever the code
reaches the delete). -/
def dictDel (l : List (String × Block)) (k : String) :
    List (String × Block) :=
  l.filter (fun p => p.1 ≠ k)

/-- Model of `Blockchain.validate_transaction` (blockchain.py, lines 59-70):
non-empty endpoints (Python truthiness of strings), positive amount,
signature present (neither `None` nor the empty string). -/
def Blockchain.validateTransaction (t : Transaction) : Bool :=
  if t.sender = "" ∨ t.recipient = "" then false
  else if t.amount ≤ 0 then false
  else
    match t.signature with
    | none => false
    | some sig => if sig = "" then false else true

/-- Model of `Blockchain.add_transaction` (blockchain.py, lines 44-57): reject a
known identity hash, validate, then append to the mempool and record the
identity.  (The Python `set.add` is modelled by consing onto a list used
only through membership.) -/
def Blockchain.addTransaction (s : ChainState) (t : Transaction) :
    Bool × ChainState :=
  let tx_hash := HT t
  if tx_hash ∈ s.known_transactions then (false, s)
  else if ¬ Blockchain.validateTransaction t then (false, s)
  else
    (true,
     { s with
       unconfirmed_transactions := s.unconfirmed_transactions ++ [t],
       known_transactions := tx_hash :: s.known_transactions })

mutual

/-- Model of `Blockchain.add_block` (blockchain.py, lines 93-116): reject invalid
blocks; on a connecting block validate PoW, append and drain pending;
otherwise store under the hash of the block in the pending dict.  The mutual
recursion with the pending drain is made structural by `fuel`, which
`Blockchain.addBlock` sizes so that exhaustion is unreachable. -/
def addBlockF : Nat → ChainState → Block → Bool × ChainState
  | 0, s, _ => (false, s)
  | fuel + 1, s, b =>
    if ¬ Block.isValid H b then (false, s)
    else if b.previous_hash = (lastBlock s).hash then
      if ¬ ProofOfWork.validate H s.difficulty b then (false, s)
      else (true, processF fuel { s with chain := s.chain ++ [b] })
    else (false, { s with pending_blocks := dictSet s.pending_blocks b.hash b })

/-- Model of `Blockchain._process_pending_blocks` (blockchain.py, lines 118-128):
repeat full passes over a snapshot of the pending dict until a pass adds
nothing. -/
def processF : Nat → ChainState → ChainState
  | 0, s => s
  | fuel + 1, s =>
    match passF fuel s s.pending_blocks with
    | (true, s') => processF fuel s'
    | (false, s') => s'

/-- One `for block_hash, block in list(...)` pass of the drain: on the
first pending block that connects and is accepted, delete it and report an
addition (`break`); a rejected candidate leaves the pass scanning on. -/
def passF : Nat → ChainState → List (String × Block) → Bool × ChainState
  | 0, s, _ => (false, s)
  | _ + 1, s, [] => (false, s)
  | fuel + 1, s, (h, blk) :: rest =>
    if blk.previous_hash = (lastBlock s).hash then
      match addBlockF fuel s blk with
      | (true, s') =>
          (true, { s' with pending_blocks := dictDel s'.pending_blocks h })
      | (false, s') => passF fuel s' rest
    else passF fuel s rest

end

/-- Fuel for `addBlockF`: each unit of drain work consumes pending
entries, so a small multiple of the pending size bounds the recursion
depth reached from `add_block`. -/
def addBlockFuel (s : ChainState) : Nat := 4 * s.pending_blocks.length + 4

/-- Entry point of `Blockchain.add_block`. -/
def Blockchain.addBlock (s : ChainState) (b : Block) : Bool × ChainState :=
  addBlockF H (addBlockFuel s) s b

/-- The candidate block `mine_block` constructs (`Block(miner=...,
transactions=self.unconfirmed_transactions[:10],
previous_hash=last_block.hash, difficulty=self.difficulty)`). -/
def mineCandidate (s : ChainState) (miner_address : String)
    (now : Amount) : Block :=
  mkBlock H HS HD miner_address (s.unconfirmed_transactions.take 10)
    (lastBlock s).hash none 0 s.difficulty now

/-- The block `pow.mine` leaves on success: the candidate with the found
nonce and the recomputed hash stored. -/
def minedBlock (s : ChainState) (miner_address : String) (now : Amount)
    (n : Nat) : Block :=
  let b0 := mineCandidate H HS HD s miner_address now
  let c0 := b0.contents
  { b0 with nonce := n, hash := H { c0 with nonce := n } }

/-- Model of `Blockchain.mine_block` (blockchain.py, lines 72-91): empty mempool
mines nothing; otherwise build a candidate from the first 10 mempool
entries on top of the tip, search a nonce (`pow.mine`, which on success
sets the found nonce and the corresponding hash on the block), and on
success drop those entries and offer the block to `add_block`. -/
def Blockchain.mineBlock (s : ChainState) (miner_address : String)
    (now : Amount) : Option Block × ChainState :=
  if s.unconfirmed_transactions = [] then (none, s)
  else
    match ProofOfWork.mineNonce H s.difficulty
        (mineCandidate H HS HD s miner_address now).contents with
    | none => (none, s)
    | some n =>
      match Blockchain.addBlock H
          { s with unconfirmed_transactions :=
              s.unconfirmed_transactions.drop 10 }
          (minedBlock H HS HD s miner_address now n) with
      | (true, s2) => (some (minedBlock H HS HD s miner_address now n), s2)
      | (false, s2) => (none, s2)

/-- Model of `Blockchain.get_balance` (blockchain.py, lines 130-139): scan every
transaction occurrence, credit `amount` to the recipient and debit
`amount` from the sender. -/
def Blockchain.getBalance (s : ChainState) (address : String) : Amount :=
  s.chain.foldl
    (fun balance block =>
      block.transactions.foldl
        (fun balance tx =>
          let balance :=
            if tx.recipient = address then balance + tx.amount else balance
          if tx.sender = address then balance - tx.amount else balance)
        balance) 0

/-- Model of `Wallet.get_balance` (wallet.py, lines 253-272): the same scan but
de-duplicated by `Transaction.calculate_hash` and debiting
`amount + fee` from the sender. -/
def Wallet.getBalance (address : String) (chain : List Block) : Amount :=
  (chain.foldl
    (fun acc block =>
      block.transactions.foldl
        (fun (acc : List String × Amount) tx =>
          let tx_hash := HT tx
          if tx_hash ∈ acc.1 then acc
          else
            let balance :=
              if tx.recipient = address then acc.2 + tx.amount else acc.2
            let balance :=
              if tx.sender = address then balance - (tx.amount + tx.fee)
              else balance
            (tx_hash :: acc.1, balance))
        acc) (([] : List String), (0 : Amount))).2

/-- The per-index body shared by `Blockchain.verify_chain` and
`Blockchain._validate_chain` for `i ≥ 1`: block integrity, linkage to the
predecessor, proof of work — checked in that order. -/
def pairsValid (difficulty : Nat) : List Block → Bool
  | [] => true
  | [_] => true
  | a :: b :: r =>
      (Block.isValid H b && (b.previous_hash == a.hash)
        && ProofOfWork.validate H difficulty b)
      && pairsValid difficulty (b :: r)

/-- Model of `Blockchain.verify_chain` (blockchain.py, lines 141-159): the indexed
loop from 1, as a pairwise scan. -/
def Blockchain.verifyChain (s : ChainState) : Bool :=
  pairsValid H s.difficulty s.chain

/-- Model of `Blockchain._validate_chain` (blockchain.py, lines 183-201): non-empty,
genesis hash matches ours, then the same per-index checks.  `self.chain[0]`
is read through `headI` (reachable states have a genesis block). -/
def Blockchain.validateChainB (s : ChainState) (c : List Block) : Bool :=
  match c with
  | [] => false
  | c0 :: _ => (c0.hash == s.chain.headI.hash) && pairsValid H s.difficulty c

/-- Model of `Blockchain.replace_chain` (blockchain.py, lines 169-181): validate,
require strictly greater length, then swap the chain. -/
def Blockchain.replaceChain (s : ChainState) (c : List Block) :
    Bool × ChainState :=
  if ¬ Blockchain.validateChainB H s c then (false, s)
  else if c.length ≤ s.chain.length then (false, s)
  else (true, { s with chain := c })

/-- The chain-mutating operations of the claim C5 state machine.  `mine`
carries the wall-clock time the Python code reads inside the call. -/
inductive Op
  | addTx (t : Transaction)
  | mine (miner : String) (now : Amount)
  | addBlock (b : Block)
  | replaceChain (c : List Block)

/-- One state-machine step (return values discarded). -/
def Blockchain.step (s : ChainState) : Op → ChainState
  | Op.addTx t => (Blockchain.addTransaction HT s t).2
  | Op.mine m now => (Blockchain.mineBlock H HS HD s m now).2
  | Op.addBlock b => (Blockchain.addBlock H s b).2
  | Op.replaceChain c => (Blockchain.replaceChain H s c).2

/-- Run an operation sequence from a fresh `Blockchain(d)`. -/
def Blockchain.run (d : Nat) (now : Amount) (ops : List Op) : ChainState :=
  ops.foldl (Blockchain.step H HS HD HT) (Blockchain.init H HS HD d now)

end Chain

/-- All transaction occurrences of a chain, in the scan order of the
balance queries. -/
def allTransactions (chain : List Block) : List Transaction :=
  (chain.map Block.transactions).flatten

/-- Signed contribution of one occurrence as `Blockchain.get_balance`
counts it: `+amount` to the recipient, `-amount` from the sender, no
fee. -/
def occContribution (address : String) (t : Transaction) : Amount :=
  (if t.recipient = address then t.amount else 0)
    - (if t.sender = address then t.amount else 0)

/-- The occurrence sum `Blockchain.get_balance` computes (amended claim
side). -/
def occurrenceBalance (address : String) (chain : List Block) : Amount :=
  ((allTransactions chain).map (occContribution address)).sum

/-- Signed contribution in the words of claim C3: `+amount` to the recipient,
`-(amount + fee)` from the sender. -/
def claimContribution (address : String) (t : Transaction) : Amount :=
  (if t.recipient = address then t.amount else 0)
    - (if t.sender = address then t.amount + t.fee else 0)

/-- First-occurrence filter by identity hash (the claim C3 phrase "duplicate
transaction identities counted only once"). -/
def dedupByHash (HT : Transaction → String) :
    List Transaction → List String → List Transaction
  | [], _ => []
  | t :: r, seen =>
      if HT t ∈ seen then dedupByHash HT r seen
      else t :: dedupByHash HT r (HT t :: seen)

/-- The claim C3 balance: sum of fee-inclusive contributions over distinct
transaction identities. -/
def claimedBalance (HT : Transaction → String) (address : String)
    (chain : List Block) : Amount :=
  ((dedupByHash HT (allTransactions chain) []).map
    (claimContribution address)).sum

/-- The transaction of the C3 counterexample: amount 5, fee 1, sender
`"A"`. -/
def c3tx : Transaction :=
  { sender := "A", recipient := "B", amount := 5, timestamp := 0,
    nonce := 0, fee := 1, dataField := none, signature := some "sg" }

/-- A block holding the same transaction twice (same identity hash). -/
def c3block : Block :=
  { version := "1.0", timestamp := 0, previous_hash := zeros 64,
    miner := "M", transactions := [c3tx, c3tx], nonce := 0,
    difficulty := 0, merkle_root := "", hash := "h" }

/-- A chain state whose chain is just `c3block` (plus empty pools). -/
def c3state : ChainState :=
  { difficulty := 0, unconfirmed_transactions := [], chain := [c3block],
    pending_blocks := [], known_transactions := [] }

/-- The acceptance condition of claim C7, in its own terms:
non-empty candidate, same genesis hash, every block at index ≥ 1 passes
self-integrity, links to its predecessor within the candidate, and passes
proof of work, and the candidate is strictly longer. -/
def ChainAcceptable (H : BlockContents → String) (s : ChainState)
    (c : List Block) : Prop :=
  c ≠ [] ∧ c.headI.hash = s.chain.headI.hash ∧
  (∀ i, 1 ≤ i → i < c.length →
    Block.isValid H (c.getD i default) = true ∧
    (c.getD i default).previous_hash = (c.getD (i - 1) default).hash ∧
    ProofOfWork.validate H s.difficulty (c.getD i default) = true) ∧
  s.chain.length < c.length

/-- The reachable-state invariant behind claim C5: the difficulty is the
construction-time one, the chain is non-empty (genesis), and every
consecutive pair satisfies the integrity/linkage/PoW checks. -/
def ReachInv (H : BlockContents → String) (d : Nat) (s : ChainState) :
    Prop :=
  s.difficulty = d ∧ s.chain ≠ [] ∧ pairsValid H d s.chain = true

/-- Toy block-hash function for the C6 scenarios: the hash of a block is its
miner name (so distinct miners give distinct hashes, and with difficulty 0
every self-consistent block passes PoW). -/
def drainH : BlockContents → String := fun c => c.miner

/-- A fresh difficulty-0 chain under `drainH` (genesis hash `"Genesis"`). -/
def drainInit : ChainState :=
  Blockchain.init drainH (fun _ => "") (fun _ => "") 0 0

def drainBk : Block := ⟨"1.0", 0, "Genesis", "Bk", [], 0, 0, "", "Bk"⟩

/-- A competing child of `B_k` that sits in the pending set ahead of
`B_{k+1}`. -/
def drainBq : Block := ⟨"1.0", 0, "Bk", "Bq", [], 0, 0, "", "Bq"⟩

def drainB1 : Block := ⟨"1.0", 0, "Bk", "B1", [], 0, 0, "", "B1"⟩

def drainB2 : Block := ⟨"1.0", 0, "B1", "B2", [], 0, 0, "", "B2"⟩

/-- The state reached by offering `Bq`, `B1`, `B2` (none of which connect
yet) to `add_block`: all three end up pending, in that order. -/
def drainPre : ChainState :=
  (Blockchain.addBlock drainH
    ((Blockchain.addBlock drainH
      ((Blockchain.addBlock drainH drainInit drainBq).2) drainB1).2)
    drainB2).2

/-- A state whose pending set is exactly `B_{k+1}, B_{k+2}` (the amended
hypothesis of the amended claim), for the witness. -/
def drainExactState : ChainState :=
  ⟨0, [], [⟨"1.0", 0, zeros 64, "Genesis", [], 0, 0, "", "Genesis"⟩],
   [("B1", drainB1), ("B2", drainB2)], []⟩

/-!
Theorems.  Everything from here on is proved about the definitions
above; no further definitions are introduced except propositions named
in the claim statements.
-/

theorem merkleCombine_length (HS : String → String) :
    ∀ l : List String, (merkleCombine HS l).length = l.length / 2
  | [] => by simp [merkleCombine]
  | [_] => by simp [merkleCombine]
  | _ :: _ :: r => by
      simp only [merkleCombine, List.length_cons,
        merkleCombine_length HS r]
      omega

theorem merklePad_length (l : List String) :
    (merklePad l).length = l.length ∨ (merklePad l).length = l.length + 1 := by
  unfold merklePad
  split <;> simp

theorem merkle_step_lt (HS : String → String) (l : List String)
    (h : 2 ≤ l.length) : (merkleCombine HS (merklePad l)).length < l.length := by
  rw [merkleCombine_length]
  rcases merklePad_length l with h1 | h1 <;> rw [h1] <;> omega

theorem merkleLevelsF_nil (HS : String → String) (f : Nat) :
    merkleLevelsF HS f [] = "" := by cases f <;> rfl

theorem merkleLevelsF_single (HS : String → String) (f : Nat) (a : String) :
    merkleLevelsF HS f [a] = a := by cases f <;> rfl

/-- The fuel argument of `merkleLevelsF` is irrelevant once it dominates the
length of the level. -/
theorem merkleLevelsF_fuel (HS : String → String) :
    ∀ (f f' : Nat) (l : List String), l.length ≤ f → l.length ≤ f' →
      merkleLevelsF HS f l = merkleLevelsF HS f' l := by
  intro f
  induction f with
  | zero =>
    intro f' l hf _
    have : l = [] := List.length_eq_zero.mp (Nat.le_zero.mp hf)
    subst this
    rw [merkleLevelsF_nil, merkleLevelsF_nil]
  | succ f ih =>
    intro f' l hf hf'
    match l, f' with
    | [], f' => rw [merkleLevelsF_nil, merkleLevelsF_nil]
    | [a], f' => rw [merkleLevelsF_single, merkleLevelsF_single]
    | a :: b :: rest, 0 => simp at hf'
    | a :: b :: rest, f2 + 1 =>
      show merkleLevelsF HS f _ = merkleLevelsF HS f2 _
      have hlt := merkle_step_lt HS (a :: b :: rest) (by simp)
      simp only [List.length_cons] at hf hf' hlt
      exact ih f2 _ (by omega) (by omega)

/-- Unfolding one level of `merkleLevels` on a list of two or more nodes. -/
theorem merkleLevels_step (HS : String → String) (l : List String)
    (h : 2 ≤ l.length) :
    merkleLevels HS l = merkleLevels HS (merkleCombine HS (merklePad l)) := by
  have hlt := merkle_step_lt HS l h
  cases l with
  | nil => simp at h
  | cons a t =>
    cases t with
    | nil => simp at h
    | cons b rest =>
      unfold merkleLevels
      have hstep : merkleLevelsF HS ((a :: b :: rest).length) (a :: b :: rest)
          = merkleLevelsF HS (rest.length + 1)
              (merkleCombine HS (merklePad (a :: b :: rest))) := rfl
      rw [hstep]
      simp only [List.length_cons] at hlt
      exact merkleLevelsF_fuel HS _ _ _ (by omega) (by omega)

section MerkleLemmas

variable (HS : String → String)

theorem merklePad_even (l : List String) : (merklePad l).length % 2 = 0 := by
  unfold merklePad
  split
  · rename_i h
    simp only [List.length_append, List.length_singleton]
    omega
  · rename_i h
    omega

theorem merklePad_getD (l : List String) (i : Nat) (h : i < l.length)
    (d : String) : (merklePad l).getD i d = l.getD i d := by
  unfold merklePad
  split
  · exact List.getD_append l _ d i h
  · rfl

theorem merklePad_le (l : List String) : l.length ≤ (merklePad l).length := by
  unfold merklePad
  split <;> simp

theorem merkleCombine_getD :
    ∀ (l : List String) (i : Nat), 2 * i + 1 < l.length →
      (merkleCombine HS l).getD i ""
        = HS (l.getD (2 * i) "" ++ l.getD (2 * i + 1) "")
  | [], _, h => by simp at h
  | [_], _, h => by simp at h
  | a :: b :: r, 0, _ => by simp [merkleCombine]
  | a :: b :: r, i + 1, h => by
      have h' : 2 * i + 1 < r.length := by
        simp only [List.length_cons] at h; omega
      have ih := merkleCombine_getD r i h'
      have e1 : 2 * (i + 1) = (2 * i + 1) + 1 := by ring
      have e2 : 2 * (i + 1) + 1 = ((2 * i + 1) + 1) + 1 := by ring
      simp only [merkleCombine, e1, e2, List.getD_cons_succ]
      exact ih

theorem getProofF_fuel :
    ∀ (f f' : Nat) (l : List String) (i : Nat), l.length ≤ f →
      l.length ≤ f' → getProofF HS f l i = getProofF HS f' l i := by
  intro f
  induction f with
  | zero =>
    intro f' l i hf _
    have : l = [] := List.length_eq_zero.mp (Nat.le_zero.mp hf)
    subst this
    cases f' <;> rfl
  | succ f ih =>
    intro f' l i hf hf'
    match l, f' with
    | [], f' => cases f' <;> rfl
    | [a], f' => cases f' <;> rfl
    | a :: b :: rest, 0 => simp at hf'
    | a :: b :: rest, f2 + 1 =>
      show _ :: getProofF HS f _ _ = _ :: getProofF HS f2 _ _
      have hlt := merkle_step_lt HS (a :: b :: rest) (by simp)
      simp only [List.length_cons] at hf hf' hlt
      rw [ih f2 _ _ (by omega) (by omega)]

theorem findLeaf_spec (target : String) :
    ∀ (l : List String) (i : Nat), findLeaf target l = some i →
      i < l.length ∧ l.getD i "" = target
  | [], i, h => by simp [findLeaf] at h
  | a :: t, i, h => by
      by_cases ha : a = target
      · simp only [findLeaf, if_pos ha, Option.some.injEq] at h
        subst h
        simpa using ha
      · simp only [findLeaf, if_neg ha, Option.map_eq_some'] at h
        obtain ⟨j, hj, rfl⟩ := h
        have := findLeaf_spec target t j hj
        simp only [List.length_cons, List.getD_cons_succ]
        exact ⟨by omega, this.2⟩

theorem findLeaf_isSome (target : String) :
    ∀ l : List String, target ∈ l → (findLeaf target l).isSome
  | a :: t, h => by
      by_cases ha : a = target
      · simp [findLeaf, ha]
      · have ht : target ∈ t := by
          cases h with
          | head => exact absurd rfl ha
          | tail _ h => exact h
        simp only [findLeaf, if_neg ha, Option.isSome_map']
        exact findLeaf_isSome target t ht

theorem foldSteps_cons (start : String) (s : ProofStep) (ps : List ProofStep) :
    foldSteps HS start (s :: ps)
      = foldSteps HS
          (match s.position with
           | Side.left => HS (s.hash ++ start)
           | Side.right => HS (start ++ s.hash)) ps := rfl

/-- Core Merkle round trip: walking the recorded proof from the leaf at a
valid index recomputes the level-fold root. -/
theorem merkle_roundtrip_aux :
    ∀ (n : Nat) (l : List String) (i : Nat), l.length ≤ n → i < l.length →
      foldSteps HS (l.getD i "") (getProofF HS l.length l i)
        = merkleLevels HS l := by
  intro n
  induction n with
  | zero =>
    intro l i hn hi
    omega
  | succ n ih =>
    intro l i hn hi
    match l with
    | [] => simp at hi
    | [a] =>
      have : i = 0 := by simp at hi; omega
      subst this
      rfl
    | a :: b :: rest =>
      have hLlen : (a :: b :: rest).length = rest.length + 2 := by simp
      have hnsEven := merklePad_even (a :: b :: rest)
      have hnsGe := merklePad_le (a :: b :: rest)
      have hClen := merkleCombine_length HS (merklePad (a :: b :: rest))
      have hstepLt := merkle_step_lt HS (a :: b :: rest) (by simp)
      have hstep : getProofF HS (a :: b :: rest).length (a :: b :: rest) i
          = { hash := (merklePad (a :: b :: rest)).getD
                (if i % 2 = 0 then i + 1 else i - 1) "",
              position := if i % 2 = 0 then Side.right else Side.left }
            :: getProofF HS (rest.length + 1)
                (merkleCombine HS (merklePad (a :: b :: rest))) (i / 2) := rfl
      have hfuel : getProofF HS (rest.length + 1)
            (merkleCombine HS (merklePad (a :: b :: rest))) (i / 2)
          = getProofF HS
              (merkleCombine HS (merklePad (a :: b :: rest))).length
              (merkleCombine HS (merklePad (a :: b :: rest))) (i / 2) :=
        getProofF_fuel HS _ _ _ (i / 2) (by omega) le_rfl
      have hiC : i / 2 < (merkleCombine HS (merklePad (a :: b :: rest))).length := by
        omega
      have hIH := ih (merkleCombine HS (merklePad (a :: b :: rest))) (i / 2)
        (by omega) hiC
      have hroot := merkleLevels_step HS (a :: b :: rest) (by omega)
      rw [hstep, hfuel, foldSteps_cons, hroot, ← hIH]
      congr 1
      by_cases hpar : i % 2 = 0
      · simp only [if_pos hpar]
        have hpadi : (merklePad (a :: b :: rest)).getD i ""
            = (a :: b :: rest).getD i "" := merklePad_getD _ i hi ""
        rw [merkleCombine_getD HS (merklePad (a :: b :: rest)) (i / 2) (by omega)]
        have hi1 : 2 * (i / 2) = i := by omega
        rw [hi1, hpadi]
      · simp only [if_neg hpar]
        have hpadi : (merklePad (a :: b :: rest)).getD i ""
            = (a :: b :: rest).getD i "" := merklePad_getD _ i hi ""
        rw [merkleCombine_getD HS (merklePad (a :: b :: rest)) (i / 2) (by omega)]
        have hi2 : 2 * (i / 2) + 1 = i := by omega
        have hi1 : 2 * (i / 2) = i - 1 := by omega
        rw [hi2, hi1, hpadi]

end MerkleLemmas

namespace Crypto

theorem sha256_kat_empty : hashString "" =
    "e3b0c44298fc1c149afbf4c8996fb92427ae41e4649b934ca495991b7852b855" := by
  decide

theorem sha256_kat_abc : hashString "abc" =
    "ba7816bf8f01cfea414140de5dae2223b00361a396177a9cb410ff61f20015ad" := by
  decide

end Crypto


section ClaimC10

/-- C10: for every difficulty `d` (and all hash functions), a freshly
constructed `Blockchain(d)` satisfies `verify_chain() == true`: the loop of
`verify_chain` starts at index 1, so the single genesis block — appended
without mining and never required to meet the difficulty prefix — is
exempt from the self-integrity, linkage and proof-of-work checks. -/
theorem fresh_chain_verifies (H : BlockContents → String)
    (HS : String → String) (HD : Transaction → String) (d : Nat)
    (now : Amount) :
    Blockchain.verifyChain H (Blockchain.init H HS HD d now) = true := rfl

end ClaimC10

section ClaimC2

/-- C2 (amended part): a block's stored `merkle_root` is
`Block._calculate_merkle_root` of its transactions; for a non-empty
transaction list this coincides with the root of a `MerkleTree` built over
the same transactions, while for zero transactions the block stores
`hash("empty_block")` but the `MerkleTree` root is `hash("empty_tree")`. -/
theorem merkle_root_refinement (H : BlockContents → String)
    (HS : String → String) (HD : Transaction → String) (miner : String)
    (txs : List Transaction) (prev : String) (ts : Option Amount)
    (nonce difficulty : Nat) (now : Amount) :
    (txs ≠ [] →
      (mkBlock H HS HD miner txs prev ts nonce difficulty now).merkle_root
        = merkleTreeRoot HS HD txs) ∧
    (mkBlock H HS HD miner [] prev ts nonce difficulty now).merkle_root
      = HS "empty_block" ∧
    merkleTreeRoot HS HD [] = HS "empty_tree" := by
  refine ⟨fun hne => ?_, rfl, rfl⟩
  show blockMerkleRoot HS HD txs = merkleTreeRoot HS HD txs
  unfold blockMerkleRoot merkleTreeRoot
  rw [if_neg hne, if_neg hne]

/-- Witness for `merkle_root_refinement` at a concrete non-empty list. -/
theorem merkle_root_refinement_witness :
    ([genesisTransaction] ≠ ([] : List Transaction)) ∧
    (mkBlock (fun _ => "") (fun s => s) (fun t => t.sender) "M"
        [genesisTransaction] (zeros 64) none 0 0 0).merkle_root
      = merkleTreeRoot (fun s => s) (fun t => t.sender)
          [genesisTransaction] :=
  ⟨by decide,
   (merkle_root_refinement (fun _ => "") (fun s => s) (fun t => t.sender)
      "M" [genesisTransaction] (zeros 64) none 0 0 0).1 (by decide)⟩

/-- C2 counterexample: with the concrete `hash_data` (SHA-256), the block
built from an empty transaction list stores
`merkle_root = hash("empty_block")`, which differs from the root
`hash("empty_tree")` of the `MerkleTree` built over the same (empty)
transaction list — so the claimed equality fails for empty blocks. -/
theorem merkle_root_empty_block_cex :
    (mkBlock (fun _ => "") Crypto.hashString (fun t => t.sender) "M" []
        (zeros 64) none 0 0 0).merkle_root
      ≠ merkleTreeRoot Crypto.hashString (fun t => t.sender) [] := by
  decide

end ClaimC2

section ClaimC4

/-- C4: `add_transaction` with an already-known identity hash returns
`false` and leaves the whole state (in particular the mempool length and
the known-identity set) unchanged; with an unknown identity, a non-empty
sender and recipient, a positive amount and a present signature it returns
`true`, appends exactly that transaction to the mempool and records the
identity. -/
theorem add_transaction_spec (HT : Transaction → String) (s : ChainState)
    (t : Transaction) :
    (HT t ∈ s.known_transactions →
      Blockchain.addTransaction HT s t = (false, s)) ∧
    (HT t ∉ s.known_transactions → t.sender ≠ "" → t.recipient ≠ "" →
      0 < t.amount → (∃ sig, t.signature = some sig ∧ sig ≠ "") →
      Blockchain.addTransaction HT s t
        = (true,
           { s with
             unconfirmed_transactions := s.unconfirmed_transactions ++ [t],
             known_transactions := HT t :: s.known_transactions })) := by
  constructor
  · intro hmem
    unfold Blockchain.addTransaction
    rw [if_pos hmem]
  · intro hmem hs hr ha hsig
    obtain ⟨sig, hsg, hsne⟩ := hsig
    have hval : Blockchain.validateTransaction t = true := by
      unfold Blockchain.validateTransaction
      rw [if_neg (by push_neg; exact ⟨hs, hr⟩), if_neg (by push_neg; exact ha),
        hsg]
      simp [hsne]
    unfold Blockchain.addTransaction
    rw [if_neg hmem]
    simp [hval]

/-- Witness for `add_transaction_spec`: a concrete duplicate call and a
concrete first call. -/
theorem add_transaction_spec_witness :
    ("h0" ∈ ["h0"] ∧
      Blockchain.addTransaction (fun _ => "h0")
        { difficulty := 4, unconfirmed_transactions := [],
          chain := [], pending_blocks := [],
          known_transactions := ["h0"] }
        { sender := "A", recipient := "B", amount := 5, timestamp := 1,
          signature := some "sg" }
        = (false,
           { difficulty := 4, unconfirmed_transactions := [],
             chain := [], pending_blocks := [],
             known_transactions := ["h0"] })) ∧
    ("h1" ∉ ["h0"] ∧
      Blockchain.addTransaction (fun _ => "h1")
        { difficulty := 4, unconfirmed_transactions := [],
          chain := [], pending_blocks := [],
          known_transactions := ["h0"] }
        { sender := "A", recipient := "B", amount := 5, timestamp := 1,
          signature := some "sg" }
        = (true,
           { difficulty := 4,
             unconfirmed_transactions :=
               [{ sender := "A", recipient := "B", amount := 5,
                  timestamp := 1, signature := some "sg" }],
             chain := [], pending_blocks := [],
             known_transactions := ["h1", "h0"] })) :=
  ⟨⟨by decide,
    (add_transaction_spec (fun _ => "h0")
      { difficulty := 4, unconfirmed_transactions := [], chain := [],
        pending_blocks := [], known_transactions := ["h0"] }
      { sender := "A", recipient := "B", amount := 5, timestamp := 1,
        signature := some "sg" }).1 (by decide)⟩,
   ⟨by decide,
    (add_transaction_spec (fun _ => "h1")
      { difficulty := 4, unconfirmed_transactions := [], chain := [],
        pending_blocks := [], known_transactions := ["h0"] }
      { sender := "A", recipient := "B", amount := 5, timestamp := 1,
        signature := some "sg" }).2 (by decide) (by decide) (by decide)
      (by decide) ⟨"sg", rfl, by decide⟩⟩⟩

end ClaimC4

section ClaimC9

/-- C9 counterexample: with a public key that loads successfully and a
transaction whose signature field is `None` (a missing signature — one of
the failure modes the claim covers), `verify_transaction` does not return
a boolean: `base64.b64decode(None)` raises `TypeError`, which the
`except (InvalidSignature, ValueError)` clause does not catch, so the
exception propagates to the caller. -/
theorem verify_transaction_raises_cex :
    @Wallet.verifyTransaction Unit (fun _ => Except.ok ())
      (fun _ => Except.ok []) (fun _ => Except.ok [])
      (fun _ _ _ => Except.ok ()) (fun _ => "")
      { sender := "A", recipient := "B", amount := 1, timestamp := 0 } []
      = Except.error Wallet.PyError.typeError := rfl

/-- C9 amended: `Wallet.verify_transaction` returns a boolean — `false`
on any failure — whenever the signature field is present, because the
library primitives fail only with `ValueError` (malformed key, base64 or
hex) or `InvalidSignature`, both caught; a missing (`None`) signature
instead raises an uncaught `TypeError` (see the counterexample). -/
theorem verify_transaction_total {PubKey : Type}
    (loadPem : List Nat → Except Wallet.PyError PubKey)
    (b64 : String → Except Wallet.PyError (List Nat))
    (fromHex : String → Except Wallet.PyError (List Nat))
    (ecdsaVerify : PubKey → List Nat → List Nat → Except Wallet.PyError Unit)
    (HT : Transaction → String) (t : Transaction) (pk : List Nat)
    (hload : ∀ x e, loadPem x = Except.error e →
      e = Wallet.PyError.valueError)
    (hb64 : ∀ x e, b64 x = Except.error e → e = Wallet.PyError.valueError)
    (hhex : ∀ x e, fromHex x = Except.error e →
      e = Wallet.PyError.valueError)
    (hver : ∀ k sg hsh e, ecdsaVerify k sg hsh = Except.error e →
      e = Wallet.PyError.invalidSignature ∨ e = Wallet.PyError.valueError)
    (hsig : t.signature ≠ none) :
    ∃ b, Wallet.verifyTransaction loadPem b64 fromHex ecdsaVerify HT t pk
      = Except.ok b := by
  obtain ⟨sg, hsg⟩ : ∃ sg, t.signature = some sg := by
    cases h : t.signature with
    | none => exact absurd h hsig
    | some s => exact ⟨s, rfl⟩
  unfold Wallet.verifyTransaction
  simp only [hsg, Wallet.base64Decode, bind, Except.bind]
  cases hl : loadPem pk with
  | error e =>
    have := hload pk e hl
    subst this
    exact ⟨false, by simp⟩
  | ok key =>
    cases hb : b64 sg with
    | error e =>
      have := hb64 sg e hb
      subst this
      exact ⟨false, by simp⟩
    | ok sgBytes =>
      cases hh : fromHex (HT t) with
      | error e =>
        have := hhex (HT t) e hh
        subst this
        exact ⟨false, by simp⟩
      | ok hashBytes =>
        cases hv : ecdsaVerify key sgBytes hashBytes with
        | error e =>
          rcases hver key sgBytes hashBytes e hv with h | h <;>
            · subst h
              exact ⟨false, by simp [hv, pure, Except.pure]⟩
        | ok u =>
          exact ⟨true, by simp [hv, pure, Except.pure]⟩

/-- Witness for `verify_transaction_total` at concrete primitives whose
failures are only `ValueError` / `InvalidSignature` and a transaction with
a present signature. -/
theorem verify_transaction_total_witness :
    ∃ b, @Wallet.verifyTransaction Unit (fun _ => Except.ok ())
      (fun _ => Except.error Wallet.PyError.valueError)
      (fun _ => Except.ok []) (fun _ _ _ => Except.ok ()) (fun _ => "")
      { sender := "A", recipient := "B", amount := 1, timestamp := 0,
        signature := some "zz" } []
      = Except.ok b :=
  @verify_transaction_total Unit (fun _ => Except.ok ())
    (fun _ => Except.error Wallet.PyError.valueError)
    (fun _ => Except.ok []) (fun _ _ _ => Except.ok ()) (fun _ => "")
    { sender := "A", recipient := "B", amount := 1, timestamp := 0,
      signature := some "zz" } []
    (fun _ _ h => by simp at h) (fun _ _ h => by simpa using h.symm)
    (fun _ _ h => by simp at h) (fun _ _ _ _ h => by simp at h)
    (by simp)

end ClaimC9

section ClaimC8

/-- C8: for every Merkle tree built from a non-empty transaction list and
every leaf hash present in the tree, verifying the generated proof against
the root hash of the tree succeeds: `get_proof` records the sibling (right at
even indices, left at odd ones) per level, and `verify_proof` folds
`hash(sibling + current)` / `hash(current + sibling)` back up to the
root. -/
theorem merkle_proof_roundtrip (HS : String → String)
    (HD : Transaction → String) (txs : List Transaction) (target : String)
    (hne : txs ≠ []) (hmem : target ∈ txs.map HD) :
    verifyProof HS target (getProof HS HD txs target)
      (merkleTreeRoot HS HD txs) = true := by
  unfold verifyProof getProof merkleTreeRoot
  rw [if_neg hne]
  have hsome := findLeaf_isSome target (txs.map HD) hmem
  obtain ⟨i, hi⟩ := Option.isSome_iff_exists.mp hsome
  obtain ⟨hlt, hval⟩ := findLeaf_spec target (txs.map HD) i hi
  simp only [hi]
  rw [← hval,
    merkle_roundtrip_aux HS (txs.map HD).length (txs.map HD) i le_rfl hlt]
  exact beq_self_eq_true _

/-- Witness for `merkle_proof_roundtrip`: three concrete transactions,
hashed by sender name, target the middle leaf. -/
theorem merkle_proof_roundtrip_witness :
    ([⟨"A", "B", 1, 0, 0, 0, none, none⟩,
      ⟨"C", "D", 2, 0, 0, 0, none, none⟩,
      ⟨"E", "F", 3, 0, 0, 0, none, none⟩] ≠ ([] : List Transaction)) ∧
    ("C" ∈ ([⟨"A", "B", 1, 0, 0, 0, none, none⟩,
      ⟨"C", "D", 2, 0, 0, 0, none, none⟩,
      ⟨"E", "F", 3, 0, 0, 0, none, none⟩] : List Transaction).map
        (fun t => t.sender)) ∧
    verifyProof (fun s => String.append "#" s) "C"
      (getProof (fun s => String.append "#" s) (fun t => t.sender)
        [⟨"A", "B", 1, 0, 0, 0, none, none⟩,
         ⟨"C", "D", 2, 0, 0, 0, none, none⟩,
         ⟨"E", "F", 3, 0, 0, 0, none, none⟩] "C")
      (merkleTreeRoot (fun s => String.append "#" s) (fun t => t.sender)
        [⟨"A", "B", 1, 0, 0, 0, none, none⟩,
         ⟨"C", "D", 2, 0, 0, 0, none, none⟩,
         ⟨"E", "F", 3, 0, 0, 0, none, none⟩]) = true :=
  ⟨by decide, by decide,
   merkle_proof_roundtrip (fun s => String.append "#" s)
     (fun t => t.sender)
     [⟨"A", "B", 1, 0, 0, 0, none, none⟩,
      ⟨"C", "D", 2, 0, 0, 0, none, none⟩,
      ⟨"E", "F", 3, 0, 0, 0, none, none⟩] "C" (by decide) (by decide)⟩

end ClaimC8

section ClaimC3

theorem foldl_blocks {α : Type} (g : α → Transaction → α) :
    ∀ (chain : List Block) (a : α),
      chain.foldl (fun acc block => block.transactions.foldl g acc) a
        = (allTransactions chain).foldl g a
  | [], a => rfl
  | b :: r, a => by
      rw [List.foldl_cons, foldl_blocks g r]
      unfold allTransactions
      rw [List.map_cons, List.flatten_cons, List.foldl_append]

theorem getBalance_inner (address : String) :
    ∀ (txs : List Transaction) (bal : Amount),
      txs.foldl
        (fun balance tx =>
          let balance :=
            if tx.recipient = address then balance + tx.amount else balance
          if tx.sender = address then balance - tx.amount else balance) bal
        = bal + ((txs.map (occContribution address)).sum) := by
  intro txs
  induction txs with
  | nil => intro bal; simp
  | cons t r ih =>
    intro bal
    rw [List.foldl_cons, ih, List.map_cons, List.sum_cons]
    unfold occContribution
    split_ifs <;> ring

theorem walletBalance_inner (HT : Transaction → String) (address : String) :
    ∀ (txs : List Transaction) (seen : List String) (bal : Amount),
      (txs.foldl
        (fun (acc : List String × Amount) tx =>
          let tx_hash := HT tx
          if tx_hash ∈ acc.1 then acc
          else
            let balance :=
              if tx.recipient = address then acc.2 + tx.amount else acc.2
            let balance :=
              if tx.sender = address then balance - (tx.amount + tx.fee)
              else balance
            (tx_hash :: acc.1, balance)) (seen, bal)).2
        = bal + ((dedupByHash HT txs seen).map
            (claimContribution address)).sum := by
  intro txs
  induction txs with
  | nil => intro seen bal; simp [dedupByHash]
  | cons t r ih =>
    intro seen bal
    have hcons : dedupByHash HT (t :: r) seen
        = if HT t ∈ seen then dedupByHash HT r seen
          else t :: dedupByHash HT r (HT t :: seen) := rfl
    rw [List.foldl_cons, hcons]
    by_cases h : HT t ∈ seen
    · simp only [if_pos h]
      rw [ih seen bal]
    · simp only [if_neg h]
      rw [ih (HT t :: seen), List.map_cons, List.sum_cons]
      unfold claimContribution
      split_ifs <;> ring

/-- C3 amended: `Blockchain.get_balance` returns the sum over all chain
transaction *occurrences* of `+amount` for the recipient and `-amount`
(fee excluded) for the sender, counting duplicates per occurrence; the
claimed fee-inclusive, identity-deduplicated sum is what
`Wallet.get_balance` computes instead. -/
theorem get_balance_spec (HT : Transaction → String) (s : ChainState)
    (address : String) :
    Blockchain.getBalance s address = occurrenceBalance address s.chain ∧
    Wallet.getBalance HT address s.chain
      = claimedBalance HT address s.chain := by
  constructor
  · unfold Blockchain.getBalance occurrenceBalance
    rw [foldl_blocks, getBalance_inner]
    ring
  · unfold Wallet.getBalance claimedBalance
    rw [foldl_blocks, walletBalance_inner]
    ring

/-- C3 counterexample: on a chain holding the same `(A→B, 5, fee 1)`
transaction twice, `Blockchain.get_balance("A")` returns `-10` (both
occurrences counted, fee ignored), while the claimed sum — `-(amount+fee)`
per distinct identity — is `-6`. -/
theorem get_balance_cex :
    Blockchain.getBalance c3state "A" = -10 ∧
    claimedBalance (fun t => t.sender) "A" c3state.chain = -6 ∧
    Blockchain.getBalance c3state "A"
      ≠ claimedBalance (fun t => t.sender) "A" c3state.chain := by
  have h1 : Blockchain.getBalance c3state "A" = -10 := by
    simp [Blockchain.getBalance, c3state, c3block, c3tx]
    norm_num
  have h2 : claimedBalance (fun t => t.sender) "A" c3state.chain = -6 := by
    simp [claimedBalance, allTransactions, dedupByHash, c3state,
      c3block, c3tx, claimContribution]
    norm_num
  refine ⟨h1, h2, ?_⟩
  rw [h1, h2]
  norm_num

end ClaimC3

section ClaimC7

/-- The indexed per-block checks of `_validate_chain` / `verify_chain` as
a proposition, equivalent to the pairwise scan `pairsValid`. -/
theorem pairsValid_iff (H : BlockContents → String) (d : Nat) :
    ∀ c : List Block, pairsValid H d c = true ↔
      ∀ i, 1 ≤ i → i < c.length →
        Block.isValid H (c.getD i default) = true ∧
        (c.getD i default).previous_hash = (c.getD (i - 1) default).hash ∧
        ProofOfWork.validate H d (c.getD i default) = true
  | [] => by
      constructor
      · intro _ i h1 h2
        simp at h2
      · intro _
        rfl
  | [a] => by
      constructor
      · intro _ i h1 h2
        simp at h2
        omega
      · intro _
        rfl
  | a :: b :: r => by
      have ih := pairsValid_iff H d (b :: r)
      have hcons : pairsValid H d (a :: b :: r)
          = ((Block.isValid H b && (b.previous_hash == a.hash)
              && ProofOfWork.validate H d b)
            && pairsValid H d (b :: r)) := rfl
      rw [hcons, Bool.and_eq_true, Bool.and_eq_true, Bool.and_eq_true]
      constructor
      · rintro ⟨⟨⟨hvb, hlb⟩, hpb⟩, hrest⟩ i h1 h2
        match i, h1 with
        | 1, _ =>
          exact ⟨hvb, by simpa using eq_of_beq hlb, hpb⟩
        | j + 2, _ =>
          have h2' : j + 1 < (b :: r).length := by
            simp only [List.length_cons] at h2 ⊢
            omega
          have hh := (ih.mp hrest) (j + 1) (by omega) h2'
          simpa [List.getD_cons_succ] using hh
      · intro hp
        have hhead := hp 1 (by omega) (by simp)
        refine ⟨⟨⟨hhead.1, ?_⟩, hhead.2.2⟩, ?_⟩
        · have := hhead.2.1
          simp only [List.getD_cons_succ, List.getD_cons_zero] at this
          simpa using this
        · refine ih.mpr fun i hi hlen => ?_
          obtain ⟨k, rfl⟩ : ∃ k, i = k + 1 := ⟨i - 1, by omega⟩
          have := hp (k + 2) (by omega)
            (by simp only [List.length_cons] at hlen ⊢; omega)
          simpa [List.getD_cons_succ] using this

theorem validateChainB_iff (H : BlockContents → String) (s : ChainState) :
    ∀ c, Blockchain.validateChainB H s c = true ↔
      (c ≠ [] ∧ c.headI.hash = s.chain.headI.hash ∧
        ∀ i, 1 ≤ i → i < c.length →
          Block.isValid H (c.getD i default) = true ∧
          (c.getD i default).previous_hash
            = (c.getD (i - 1) default).hash ∧
          ProofOfWork.validate H s.difficulty (c.getD i default) = true)
  | [] => by simp [Blockchain.validateChainB]
  | c0 :: cr => by
      unfold Blockchain.validateChainB
      rw [Bool.and_eq_true, pairsValid_iff H s.difficulty (c0 :: cr)]
      constructor
      · rintro ⟨hh, hrest⟩
        exact ⟨by simp, by simpa using eq_of_beq hh, hrest⟩
      · rintro ⟨-, hh, hrest⟩
        refine ⟨?_, hrest⟩
        simp only [List.headI] at hh
        simpa using hh

/-- C7: `replace_chain(c)` returns true iff `c` is non-empty, shares our
genesis hash, every non-genesis block passes self-integrity, linkage and
proof of work, and `c` is strictly longer than the current chain; whenever
it returns false the state (in particular the chain) is unchanged.  The
hypothesis `s.chain ≠ []` scopes the statement to real states (on an
empty chain the Python code would raise `IndexError` reading
`self.chain[0]` instead of returning a boolean). -/
theorem replace_chain_spec (H : BlockContents → String) (s : ChainState)
    (c : List Block) (hs : s.chain ≠ []) :
    ((Blockchain.replaceChain H s c).1 = true ↔ ChainAcceptable H s c) ∧
    ((Blockchain.replaceChain H s c).1 = false →
      (Blockchain.replaceChain H s c).2 = s) := by
  have hv := validateChainB_iff H s c
  by_cases h1 : Blockchain.validateChainB H s c = true
  · by_cases h2 : c.length ≤ s.chain.length
    · have hres : Blockchain.replaceChain H s c = (false, s) := by
        unfold Blockchain.replaceChain
        rw [if_neg (by simp [h1]), if_pos h2]
      rw [hres]
      refine ⟨⟨fun hft => absurd hft (by simp), ?_⟩, fun _ => rfl⟩
      rintro ⟨-, -, -, hlen⟩
      omega
    · have hres : Blockchain.replaceChain H s c
          = (true, { s with chain := c }) := by
        unfold Blockchain.replaceChain
        rw [if_neg (by simp [h1]), if_neg h2]
      rw [hres]
      refine ⟨⟨fun _ => ?_, fun _ => rfl⟩, fun hff => absurd hff (by simp)⟩
      obtain ⟨ha, hb, hc⟩ := hv.mp h1
      exact ⟨ha, hb, hc, by omega⟩
  · have hres : Blockchain.replaceChain H s c = (false, s) := by
      unfold Blockchain.replaceChain
      rw [if_pos (by simp [h1])]
    rw [hres]
    refine ⟨⟨fun hft => absurd hft (by simp), ?_⟩, fun _ => rfl⟩
    rintro ⟨ha, hb, hc, -⟩
    exact absurd (hv.mpr ⟨ha, hb, hc⟩) h1

/-- Witness for `replace_chain_spec`: a concrete one-block state and the
empty candidate (which `replace_chain` rejects, leaving the state
unchanged). -/
theorem replace_chain_spec_witness :
    (({ difficulty := 4, unconfirmed_transactions := [],
        chain := [{ version := "1.0", timestamp := 0,
                    previous_hash := zeros 64, miner := "Genesis",
                    transactions := [], nonce := 0, difficulty := 4,
                    merkle_root := "", hash := "g" }],
        pending_blocks := [], known_transactions := [] } :
          ChainState).chain ≠ []) ∧
    ((Blockchain.replaceChain (fun _ => "")
        { difficulty := 4, unconfirmed_transactions := [],
          chain := [{ version := "1.0", timestamp := 0,
                      previous_hash := zeros 64, miner := "Genesis",
                      transactions := [], nonce := 0, difficulty := 4,
                      merkle_root := "", hash := "g" }],
          pending_blocks := [], known_transactions := [] } []).1 = true ↔
      ChainAcceptable (fun _ => "")
        { difficulty := 4, unconfirmed_transactions := [],
          chain := [{ version := "1.0", timestamp := 0,
                      previous_hash := zeros 64, miner := "Genesis",
                      transactions := [], nonce := 0, difficulty := 4,
                      merkle_root := "", hash := "g" }],
          pending_blocks := [], known_transactions := [] } []) :=
  ⟨by decide,
   (replace_chain_spec (fun _ => "")
      { difficulty := 4, unconfirmed_transactions := [],
        chain := [{ version := "1.0", timestamp := 0,
                    previous_hash := zeros 64, miner := "Genesis",
                    transactions := [], nonce := 0, difficulty := 4,
                    merkle_root := "", hash := "g" }],
        pending_blocks := [], known_transactions := [] } []
      (by decide)).1⟩

end ClaimC7

section ClaimC5

theorem isValid_iff (H : BlockContents → String) (b : Block) :
    Block.isValid H b = true ↔
      b.hash = Block.calcHash H b ∧
      strStartsWith b.hash (zeros b.difficulty) = true := by
  unfold Block.isValid
  split_ifs with h1 h2 <;> simp_all

theorem powValidate_iff (H : BlockContents → String) (d : Nat) (b : Block) :
    ProofOfWork.validate H d b = true ↔
      Block.calcHash H b = b.hash ∧
      strStartsWith (Block.calcHash H b) (zeros d) = true := by
  unfold ProofOfWork.validate
  split_ifs with h1 h2 <;> simp_all

theorem getLastD_irrel : ∀ (l : List Block) (d1 d2 : Block), l ≠ [] →
    l.getLastD d1 = l.getLastD d2
  | [], _, _, h => absurd rfl h
  | x :: t, d1, d2, _ => by
      rw [List.getLastD_cons, List.getLastD_cons]

theorem pairsValid_concat (H : BlockContents → String) (d : Nat) :
    ∀ (l : List Block) (b : Block), l ≠ [] →
      (pairsValid H d (l ++ [b]) = true ↔
        pairsValid H d l = true ∧ Block.isValid H b = true ∧
        b.previous_hash = (l.getLastD default).hash ∧
        ProofOfWork.validate H d b = true)
  | [], _, h => absurd rfl h
  | [x], b, _ => by
      have h1 : pairsValid H d ([x] ++ [b])
          = ((Block.isValid H b && (b.previous_hash == x.hash)
              && ProofOfWork.validate H d b) && pairsValid H d [b]) := rfl
      have h2 : pairsValid H d [b] = true := rfl
      have h3 : pairsValid H d [x] = true := rfl
      rw [h1, h2, h3, Bool.and_true, Bool.and_eq_true, Bool.and_eq_true]
      constructor
      · rintro ⟨⟨hv, hl⟩, hp⟩
        exact ⟨rfl, hv, by simpa using eq_of_beq hl, hp⟩
      · rintro ⟨-, hv, hl, hp⟩
        refine ⟨⟨hv, ?_⟩, hp⟩
        simp only [List.getLastD] at hl
        simpa using hl
  | x :: y :: r, b, _ => by
      have ih := pairsValid_concat H d (y :: r) b (by simp)
      have h1 : pairsValid H d ((x :: y :: r) ++ [b])
          = ((Block.isValid H y && (y.previous_hash == x.hash)
              && ProofOfWork.validate H d y)
            && pairsValid H d ((y :: r) ++ [b])) := rfl
      have h2 : pairsValid H d (x :: y :: r)
          = ((Block.isValid H y && (y.previous_hash == x.hash)
              && ProofOfWork.validate H d y)
            && pairsValid H d (y :: r)) := rfl
      have hlast : (x :: y :: r).getLastD default
          = (y :: r).getLastD default :=
        getLastD_irrel (x :: y :: r) default default (by simp) |>.trans
          (by rw [List.getLastD_cons]
              exact getLastD_irrel (y :: r) x default (by simp))
      rw [h1, h2, hlast]
      simp only [Bool.and_eq_true, ih, hlast]
      tauto

theorem addBlock_family_preserves (H : BlockContents → String) (d : Nat) :
    ∀ fuel : Nat,
      (∀ s b, ReachInv H d s → ReachInv H d (addBlockF H fuel s b).2) ∧
      (∀ s, ReachInv H d s → ReachInv H d (processF H fuel s)) ∧
      (∀ s items, ReachInv H d s →
        ReachInv H d (passF H fuel s items).2) := by
  intro fuel
  induction fuel with
  | zero => exact ⟨fun _ _ h => h, fun _ h => h, fun _ _ h => h⟩
  | succ fuel ih =>
    obtain ⟨ihA, ihP, ihS⟩ := ih
    refine ⟨?_, ?_, ?_⟩
    · intro s b hInv
      show ReachInv H d (addBlockF H (fuel + 1) s b).2
      by_cases hval : Block.isValid H b = true
      · by_cases hconn : b.previous_hash = (lastBlock s).hash
        · by_cases hpow : ProofOfWork.validate H s.difficulty b = true
          · have hres : addBlockF H (fuel + 1) s b
                = (true, processF H fuel { s with chain := s.chain ++ [b] }) := by
              unfold addBlockF
              rw [if_neg (not_not_intro hval), if_pos hconn,
                if_neg (not_not_intro hpow)]
            rw [hres]
            obtain ⟨hd, hne, hpv⟩ := hInv
            refine ihP _ ⟨hd, by simp, ?_⟩
            show pairsValid H d (s.chain ++ [b]) = true
            rw [pairsValid_concat H d s.chain b hne]
            subst hd
            exact ⟨hpv, hval, hconn, hpow⟩
          · have hres : addBlockF H (fuel + 1) s b = (false, s) := by
              unfold addBlockF
              rw [if_neg (not_not_intro hval), if_pos hconn, if_pos hpow]
            rw [hres]
            exact hInv
        · have hres : addBlockF H (fuel + 1) s b
              = (false, { s with
                  pending_blocks := dictSet s.pending_blocks b.hash b }) := by
            unfold addBlockF
            rw [if_neg (not_not_intro hval), if_neg hconn]
          rw [hres]
          exact ⟨hInv.1, hInv.2.1, hInv.2.2⟩
      · have hres : addBlockF H (fuel + 1) s b = (false, s) := by
          unfold addBlockF
          rw [if_pos hval]
        rw [hres]
        exact hInv
    · intro s hInv
      show ReachInv H d (processF H (fuel + 1) s)
      unfold processF
      rcases hpass : passF H fuel s s.pending_blocks with ⟨flag, s'⟩
      have hInv' : ReachInv H d s' := by
        have := ihS s s.pending_blocks hInv
        rwa [hpass] at this
      cases flag
      · exact hInv'
      · exact ihP s' hInv'
    · intro s items hInv
      show ReachInv H d (passF H (fuel + 1) s items).2
      match items with
      | [] => exact hInv
      | (h, blk) :: rest =>
        show ReachInv H d
          ((if blk.previous_hash = (lastBlock s).hash then
              match addBlockF H fuel s blk with
              | (true, s') =>
                  (true,
                   { s' with pending_blocks := dictDel s'.pending_blocks h })
              | (false, s') => passF H fuel s' rest
            else passF H fuel s rest) : Bool × ChainState).2
        split_ifs with hconn
        · rcases hab : addBlockF H fuel s blk with ⟨flag, s'⟩
          have hInv' : ReachInv H d s' := by
            have := ihA s blk hInv
            rwa [hab] at this
          cases flag
          · exact ihS s' rest hInv'
          · exact ⟨hInv'.1, hInv'.2.1, hInv'.2.2⟩
        · exact ihS s rest hInv

theorem init_inv (H : BlockContents → String) (HS : String → String)
    (HD : Transaction → String) (d : Nat) (now : Amount) :
    ReachInv H d (Blockchain.init H HS HD d now) :=
  ⟨rfl, by simp [Blockchain.init], rfl⟩

theorem match_mine_snd {b : Block} :
    ∀ p : Bool × ChainState,
      ((match p with
        | (true, s2) => (some b, s2)
        | (false, s2) => ((none : Option Block), s2)) :
          Option Block × ChainState).2 = p.2
  | (true, _) => rfl
  | (false, _) => rfl

set_option maxRecDepth 4000 in
theorem mineBlock_snd (H : BlockContents → String) (HS : String → String)
    (HD : Transaction → String) (s : ChainState) (m : String)
    (now : Amount) :
    (Blockchain.mineBlock H HS HD s m now).2 = s ∨
    ∃ b, (Blockchain.mineBlock H HS HD s m now).2
      = (Blockchain.addBlock H
          { s with unconfirmed_transactions :=
              s.unconfirmed_transactions.drop 10 } b).2 := by
  unfold Blockchain.mineBlock
  by_cases hempty : s.unconfirmed_transactions = []
  · rw [if_pos hempty]
    exact Or.inl rfl
  · rw [if_neg hempty]
    cases ProofOfWork.mineNonce H s.difficulty
        (mineCandidate H HS HD s m now).contents with
    | none => exact Or.inl rfl
    | some n =>
      exact Or.inr ⟨minedBlock H HS HD s m now n, match_mine_snd _⟩

theorem step_preserves (H : BlockContents → String) (HS : String → String)
    (HD : Transaction → String) (HT : Transaction → String) (d : Nat)
    (s : ChainState) (op : Op) (hInv : ReachInv H d s) :
    ReachInv H d (Blockchain.step H HS HD HT s op) := by
  cases op with
  | addTx t =>
    show ReachInv H d (Blockchain.addTransaction HT s t).2
    simp only [Blockchain.addTransaction]
    split_ifs <;> exact ⟨hInv.1, hInv.2.1, hInv.2.2⟩
  | mine m now =>
    show ReachInv H d (Blockchain.mineBlock H HS HD s m now).2
    rcases mineBlock_snd H HS HD s m now with heq | ⟨b, heq⟩
    · rw [heq]
      exact hInv
    · rw [heq]
      exact (addBlock_family_preserves H d _).1 _ b
        ⟨hInv.1, hInv.2.1, hInv.2.2⟩
  | addBlock b =>
    show ReachInv H d (Blockchain.addBlock H s b).2
    exact (addBlock_family_preserves H d (addBlockFuel s)).1 s b hInv
  | replaceChain c =>
    show ReachInv H d (Blockchain.replaceChain H s c).2
    by_cases h1 : Blockchain.validateChainB H s c = true
    · by_cases h2 : c.length ≤ s.chain.length
      · have hres : Blockchain.replaceChain H s c = (false, s) := by
          unfold Blockchain.replaceChain
          rw [if_neg (not_not_intro h1), if_pos h2]
        rw [hres]
        exact hInv
      · have hres : Blockchain.replaceChain H s c
            = (true, { s with chain := c }) := by
          unfold Blockchain.replaceChain
          rw [if_neg (not_not_intro h1), if_neg h2]
        rw [hres]
        match c, h1 with
        | [], h1 => exact absurd h1 (by simp [Blockchain.validateChainB])
        | c0 :: cr, h1 =>
          unfold Blockchain.validateChainB at h1
          rw [Bool.and_eq_true] at h1
          refine ⟨hInv.1, by simp, ?_⟩
          show pairsValid H d (c0 :: cr) = true
          rw [← hInv.1]
          exact h1.2
    · have hres : Blockchain.replaceChain H s c = (false, s) := by
        unfold Blockchain.replaceChain
        rw [if_pos h1]
      rw [hres]
      exact hInv

theorem run_inv (H : BlockContents → String) (HS : String → String)
    (HD : Transaction → String) (HT : Transaction → String) (d : Nat)
    (now : Amount) (ops : List Op) :
    ReachInv H d (Blockchain.run H HS HD HT d now ops) := by
  unfold Blockchain.run
  have : ∀ (l : List Op) (s : ChainState), ReachInv H d s →
      ReachInv H d (l.foldl (Blockchain.step H HS HD HT) s) := by
    intro l
    induction l with
    | nil => exact fun s h => h
    | cons op rest ih =>
      intro s h
      exact ih _ (step_preserves H HS HD HT d s op h)
  exact this ops _ (init_inv H HS HD d now)

/-- C5: from the genesis state, after any sequence of `add_transaction`,
`mine_block`, `add_block` and `replace_chain` operations, every block at
index `i > 0` of the chain has a hash with `difficulty` leading `'0'`s,
equal to the hash recomputed from its contents, and linking to the hash of
the block at index `i - 1`. -/
theorem chain_invariant (H : BlockContents → String)
    (HS : String → String) (HD : Transaction → String)
    (HT : Transaction → String) (d : Nat) (now : Amount) (ops : List Op)
    (i : Nat) (h1 : 1 ≤ i)
    (h2 : i < (Blockchain.run H HS HD HT d now ops).chain.length) :
    (strStartsWith ((Blockchain.run H HS HD HT d now ops).chain.getD i
        default).hash (zeros d) = true) ∧
    ((Blockchain.run H HS HD HT d now ops).chain.getD i default).hash
      = Block.calcHash H
          ((Blockchain.run H HS HD HT d now ops).chain.getD i default) ∧
    ((Blockchain.run H HS HD HT d now ops).chain.getD i default).previous_hash
      = ((Blockchain.run H HS HD HT d now ops).chain.getD (i - 1)
          default).hash := by
  obtain ⟨-, -, hpv⟩ := run_inv H HS HD HT d now ops
  have hidx := (pairsValid_iff H d _).mp hpv i h1 h2
  obtain ⟨hval, hlink, hpow⟩ := hidx
  obtain ⟨hh, -⟩ := (isValid_iff H _).mp hval
  obtain ⟨hch, hpref⟩ := (powValidate_iff H d _).mp hpow
  rw [hch] at hpref
  exact ⟨hpref, hh, hlink⟩

/-- Witness for `chain_invariant`: a run accepting one toy block (hash
function = miner name, difficulty 0), checked at index 1. -/
theorem chain_invariant_witness :
    (1 ≤ 1) ∧
    (1 < (Blockchain.run (fun c => c.miner) (fun _ => "") (fun _ => "")
        (fun _ => "") 0 0
        [Op.addBlock (⟨"1.0", 0, "Genesis", "B1", [], 0, 0, "", "B1"⟩ : Block)]).chain.length) ∧
    ((strStartsWith ((Blockchain.run (fun c => c.miner) (fun _ => "")
        (fun _ => "") (fun _ => "") 0 0
        [Op.addBlock (⟨"1.0", 0, "Genesis", "B1", [], 0, 0, "", "B1"⟩ : Block)]).chain.getD 1 default).hash (zeros 0) = true) ∧
      ((Blockchain.run (fun c => c.miner) (fun _ => "") (fun _ => "")
        (fun _ => "") 0 0
        [Op.addBlock (⟨"1.0", 0, "Genesis", "B1", [], 0, 0, "", "B1"⟩ : Block)]).chain.getD 1 default).hash
        = Block.calcHash (fun c => c.miner)
            ((Blockchain.run (fun c => c.miner) (fun _ => "") (fun _ => "")
              (fun _ => "") 0 0
              [Op.addBlock (⟨"1.0", 0, "Genesis", "B1", [], 0, 0, "", "B1"⟩ : Block)]).chain.getD 1 default) ∧
      ((Blockchain.run (fun c => c.miner) (fun _ => "") (fun _ => "")
        (fun _ => "") 0 0
        [Op.addBlock (⟨"1.0", 0, "Genesis", "B1", [], 0, 0, "", "B1"⟩ : Block)]).chain.getD 1 default).previous_hash
        = ((Blockchain.run (fun c => c.miner) (fun _ => "") (fun _ => "")
            (fun _ => "") 0 0
            [Op.addBlock (⟨"1.0", 0, "Genesis", "B1", [], 0, 0, "", "B1"⟩ : Block)]).chain.getD (1 - 1)
              default).hash) :=
  ⟨by decide, by decide,
   chain_invariant (fun c => c.miner) (fun _ => "") (fun _ => "")
     (fun _ => "") 0 0
     [Op.addBlock (⟨"1.0", 0, "Genesis", "B1", [], 0, 0, "", "B1"⟩ : Block)]
     1 (by decide) (by decide)⟩

end ClaimC5

section ClaimC6

theorem getLastD_concat' : ∀ (l : List Block) (b d : Block),
    (l ++ [b]).getLastD d = b
  | [], _, _ => rfl
  | x :: t, b, d => by
      rw [List.cons_append, List.getLastD_cons]
      exact getLastD_concat' t b x

theorem addBlockF_accept (H : BlockContents → String) (fuel : Nat)
    (s : ChainState) (b : Block) (hv : Block.isValid H b = true)
    (hc : b.previous_hash = (lastBlock s).hash)
    (hp : ProofOfWork.validate H s.difficulty b = true) :
    addBlockF H (fuel + 1) s b
      = (true, processF H fuel { s with chain := s.chain ++ [b] }) := by
  unfold addBlockF
  rw [if_neg (not_not_intro hv), if_pos hc, if_neg (not_not_intro hp)]

theorem passF_nil' (H : BlockContents → String) (fuel : Nat)
    (s : ChainState) : passF H (fuel + 1) s [] = (false, s) := rfl

theorem passF_skip (H : BlockContents → String) (fuel : Nat)
    (s : ChainState) (h : String) (blk : Block)
    (rest : List (String × Block))
    (hne : ¬ blk.previous_hash = (lastBlock s).hash) :
    passF H (fuel + 1) s ((h, blk) :: rest) = passF H fuel s rest := by
  have hstep : passF H (fuel + 1) s ((h, blk) :: rest)
      = (if blk.previous_hash = (lastBlock s).hash then
          match addBlockF H fuel s blk with
          | (true, s2) =>
              (true,
               { s2 with pending_blocks := dictDel s2.pending_blocks h })
          | (false, s2) => passF H fuel s2 rest
        else passF H fuel s rest) := rfl
  rw [hstep, if_neg hne]

theorem passF_hit (H : BlockContents → String) (fuel : Nat)
    (s : ChainState) (h : String) (blk : Block)
    (rest : List (String × Block)) (s' : ChainState)
    (pd : List (String × Block))
    (hc : blk.previous_hash = (lastBlock s).hash)
    (hadd : addBlockF H fuel s blk = (true, s'))
    (hdel : dictDel s'.pending_blocks h = pd) :
    passF H (fuel + 1) s ((h, blk) :: rest)
      = (true, { s' with pending_blocks := pd }) := by
  have hstep : passF H (fuel + 1) s ((h, blk) :: rest)
      = (if blk.previous_hash = (lastBlock s).hash then
          match addBlockF H fuel s blk with
          | (true, s2) =>
              (true,
               { s2 with pending_blocks := dictDel s2.pending_blocks h })
          | (false, s2) => passF H fuel s2 rest
        else passF H fuel s rest) := rfl
  rw [hstep, if_pos hc, hadd]
  simp only [hdel]

theorem processF_of_true (H : BlockContents → String) (fuel : Nat)
    (s s' : ChainState)
    (hp : passF H fuel s s.pending_blocks = (true, s')) :
    processF H (fuel + 1) s = processF H fuel s' := by
  have hstep : processF H (fuel + 1) s
      = (match passF H fuel s s.pending_blocks with
        | (true, s2) => processF H fuel s2
        | (false, s2) => s2) := rfl
  rw [hstep, hp]

theorem processF_of_false (H : BlockContents → String) (fuel : Nat)
    (s s' : ChainState)
    (hp : passF H fuel s s.pending_blocks = (false, s')) :
    processF H (fuel + 1) s = s' := by
  have hstep : processF H (fuel + 1) s
      = (match passF H fuel s s.pending_blocks with
        | (true, s2) => processF H fuel s2
        | (false, s2) => s2) := rfl
  rw [hstep, hp]

theorem lastBlock_flat (d0 : Nat) (u0 : List Transaction) (l : List Block)
    (b : Block) (p0 : List (String × Block)) (k0 : List String) :
    lastBlock ⟨d0, u0, l ++ [b], p0, k0⟩ = b := by
  show (l ++ [b]).getLastD default = b
  exact getLastD_concat' l b default

/-- C6 amended: the pending-drain claim holds when the pending set
consists of exactly `B_{k+1}` and `B_{k+2}` (in either order), with
pairwise-distinct block hashes: after a successful `add_block(B_k)`, all
three blocks are appended to the main chain in order and the pending set
is empty.  (With further pending blocks the drain may pick a competing
fork child of `B_k` first — see the counterexample.) -/
theorem pending_drain_exact (H : BlockContents → String) (s : ChainState)
    (bk b1 b2 : Block)
    (hk_val : Block.isValid H bk = true)
    (hk_pow : ProofOfWork.validate H s.difficulty bk = true)
    (hk_conn : bk.previous_hash = (lastBlock s).hash)
    (h1_val : Block.isValid H b1 = true)
    (h1_pow : ProofOfWork.validate H s.difficulty b1 = true)
    (h1_link : b1.previous_hash = bk.hash)
    (h2_val : Block.isValid H b2 = true)
    (h2_pow : ProofOfWork.validate H s.difficulty b2 = true)
    (h2_link : b2.previous_hash = b1.hash)
    (hne1 : bk.hash ≠ b1.hash) (hne2 : bk.hash ≠ b2.hash)
    (hne3 : b1.hash ≠ b2.hash)
    (hpend : s.pending_blocks = [(b1.hash, b1), (b2.hash, b2)] ∨
             s.pending_blocks = [(b2.hash, b2), (b1.hash, b1)]) :
    (Blockchain.addBlock H s bk).1 = true ∧
    (Blockchain.addBlock H s bk).2.chain = s.chain ++ [bk, b1, b2] ∧
    (Blockchain.addBlock H s bk).2.pending_blocks = [] := by
  obtain ⟨d0, u0, c0, p0, k0⟩ := s
  have hdel2 : dictDel [(b1.hash, b1), (b2.hash, b2)] b2.hash
      = [(b1.hash, b1)] := by
    simp [dictDel, hne3]
  have hdel2' : dictDel [(b2.hash, b2), (b1.hash, b1)] b2.hash
      = [(b1.hash, b1)] := by
    simp [dictDel, hne3]
  have hdel1 : dictDel [(b1.hash, b1)] b1.hash = [] := by
    simp [dictDel]
  rcases hpend with hp0 | hp0 <;> subst hp0
  · -- pending order [(b1, b2)]
    have hlast1 : lastBlock ⟨d0, u0, c0 ++ [bk],
        [(b1.hash, b1), (b2.hash, b2)], k0⟩ = bk :=
      lastBlock_flat d0 u0 c0 bk _ k0
    have hlast2 : lastBlock ⟨d0, u0, (c0 ++ [bk]) ++ [b1],
        [(b1.hash, b1), (b2.hash, b2)], k0⟩ = b1 :=
      lastBlock_flat d0 u0 (c0 ++ [bk]) b1 _ k0
    have hlast3 : lastBlock ⟨d0, u0, ((c0 ++ [bk]) ++ [b1]) ++ [b2],
        [(b1.hash, b1), (b2.hash, b2)], k0⟩ = b2 :=
      lastBlock_flat d0 u0 ((c0 ++ [bk]) ++ [b1]) b2 _ k0
    have hlast4 : lastBlock ⟨d0, u0, ((c0 ++ [bk]) ++ [b1]) ++ [b2],
        [(b1.hash, b1)], k0⟩ = b2 :=
      lastBlock_flat d0 u0 ((c0 ++ [bk]) ++ [b1]) b2 _ k0
    -- innermost drain pass: nothing connects to tip b2
    have epass3 : passF H 3
        ⟨d0, u0, ((c0 ++ [bk]) ++ [b1]) ++ [b2],
          [(b1.hash, b1), (b2.hash, b2)], k0⟩
        [(b1.hash, b1), (b2.hash, b2)]
        = (false, ⟨d0, u0, ((c0 ++ [bk]) ++ [b1]) ++ [b2],
            [(b1.hash, b1), (b2.hash, b2)], k0⟩) := by
      rw [passF_skip H 2 _ b1.hash b1 _ (by rw [hlast3, h1_link]; exact hne2),
        passF_skip H 1 _ b2.hash b2 _ (by rw [hlast3, h2_link]; exact hne3)]
      exact passF_nil' H 0 _
    have eproc3 : processF H 4
        ⟨d0, u0, ((c0 ++ [bk]) ++ [b1]) ++ [b2],
          [(b1.hash, b1), (b2.hash, b2)], k0⟩
        = ⟨d0, u0, ((c0 ++ [bk]) ++ [b1]) ++ [b2],
            [(b1.hash, b1), (b2.hash, b2)], k0⟩ :=
      processF_of_false H 3 _ _ epass3
    -- accepting b2 on tip b1
    have eadd2 : addBlockF H 5
        ⟨d0, u0, (c0 ++ [bk]) ++ [b1],
          [(b1.hash, b1), (b2.hash, b2)], k0⟩ b2
        = (true, ⟨d0, u0, ((c0 ++ [bk]) ++ [b1]) ++ [b2],
            [(b1.hash, b1), (b2.hash, b2)], k0⟩) := by
      rw [addBlockF_accept H 4 ⟨d0, u0, (c0 ++ [bk]) ++ [b1], [(b1.hash, b1), (b2.hash, b2)], k0⟩ b2 h2_val
        (by rw [hlast2]; exact h2_link) h2_pow]
      exact congrArg _ eproc3
    -- the middle pass: skip b1 (tip is b1 already), hit b2
    have epass2 : passF H 7
        ⟨d0, u0, (c0 ++ [bk]) ++ [b1],
          [(b1.hash, b1), (b2.hash, b2)], k0⟩
        [(b1.hash, b1), (b2.hash, b2)]
        = (true, ⟨d0, u0, ((c0 ++ [bk]) ++ [b1]) ++ [b2],
            [(b1.hash, b1)], k0⟩) := by
      rw [passF_skip H 6 _ b1.hash b1 _ (by rw [hlast2, h1_link]; exact hne1)]
      exact passF_hit H 5 _ b2.hash b2 [] _ _
        (by rw [hlast2]; exact h2_link)
        (by
          have : addBlockF H 5
              ⟨d0, u0, (c0 ++ [bk]) ++ [b1],
                [(b1.hash, b1), (b2.hash, b2)], k0⟩ b2
              = (true, ⟨d0, u0, ((c0 ++ [bk]) ++ [b1]) ++ [b2],
                  [(b1.hash, b1), (b2.hash, b2)], k0⟩) := eadd2
          exact this)
        hdel2
    have epass2' : passF H 6
        ⟨d0, u0, ((c0 ++ [bk]) ++ [b1]) ++ [b2],
          [(b1.hash, b1)], k0⟩
        [(b1.hash, b1)]
        = (false, ⟨d0, u0, ((c0 ++ [bk]) ++ [b1]) ++ [b2],
            [(b1.hash, b1)], k0⟩) := by
      rw [passF_skip H 5 _ b1.hash b1 _ (by rw [hlast4, h1_link]; exact hne2)]
      exact passF_nil' H 4 _
    -- accepting b1 on tip bk
    have eadd1 : addBlockF H 9
        ⟨d0, u0, c0 ++ [bk], [(b1.hash, b1), (b2.hash, b2)], k0⟩ b1
        = (true, ⟨d0, u0, ((c0 ++ [bk]) ++ [b1]) ++ [b2],
            [(b1.hash, b1)], k0⟩) := by
      rw [addBlockF_accept H 8 ⟨d0, u0, c0 ++ [bk], [(b1.hash, b1), (b2.hash, b2)], k0⟩ b1 h1_val
        (by rw [hlast1]; exact h1_link) h1_pow]
      refine congrArg _ ?_
      rw [processF_of_true H 7 _ _ epass2]
      exact processF_of_false H 6 _ _ epass2'
    -- the top pass: hit b1 first
    have epass1 : passF H 10
        ⟨d0, u0, c0 ++ [bk], [(b1.hash, b1), (b2.hash, b2)], k0⟩
        [(b1.hash, b1), (b2.hash, b2)]
        = (true, ⟨d0, u0, ((c0 ++ [bk]) ++ [b1]) ++ [b2], [], k0⟩) :=
      passF_hit H 9 _ b1.hash b1 _ _ _
        (by rw [hlast1]; exact h1_link) eadd1 hdel1
    have epass1' : passF H 9
        ⟨d0, u0, ((c0 ++ [bk]) ++ [b1]) ++ [b2], [], k0⟩ []
        = (false, ⟨d0, u0, ((c0 ++ [bk]) ++ [b1]) ++ [b2], [], k0⟩) :=
      passF_nil' H 8 _
    have etop : Blockchain.addBlock H
        ⟨d0, u0, c0, [(b1.hash, b1), (b2.hash, b2)], k0⟩ bk
        = (true, ⟨d0, u0, ((c0 ++ [bk]) ++ [b1]) ++ [b2], [], k0⟩) := by
      show addBlockF H 12 ⟨d0, u0, c0, [(b1.hash, b1), (b2.hash, b2)], k0⟩ bk = _
      rw [addBlockF_accept H 11 ⟨d0, u0, c0, [(b1.hash, b1), (b2.hash, b2)], k0⟩ bk hk_val hk_conn hk_pow]
      refine congrArg _ ?_
      rw [processF_of_true H 10 _ _ epass1]
      exact processF_of_false H 9 _ _ epass1'
    rw [etop]
    refine ⟨rfl, ?_, rfl⟩
    show ((c0 ++ [bk]) ++ [b1]) ++ [b2] = c0 ++ [bk, b1, b2]
    simp
  · -- pending order [(b2, b1)]
    have hlast1 : lastBlock ⟨d0, u0, c0 ++ [bk],
        [(b2.hash, b2), (b1.hash, b1)], k0⟩ = bk :=
      lastBlock_flat d0 u0 c0 bk _ k0
    have hlast2 : lastBlock ⟨d0, u0, (c0 ++ [bk]) ++ [b1],
        [(b2.hash, b2), (b1.hash, b1)], k0⟩ = b1 :=
      lastBlock_flat d0 u0 (c0 ++ [bk]) b1 _ k0
    have hlast3 : lastBlock ⟨d0, u0, ((c0 ++ [bk]) ++ [b1]) ++ [b2],
        [(b2.hash, b2), (b1.hash, b1)], k0⟩ = b2 :=
      lastBlock_flat d0 u0 ((c0 ++ [bk]) ++ [b1]) b2 _ k0
    have hlast4 : lastBlock ⟨d0, u0, ((c0 ++ [bk]) ++ [b1]) ++ [b2],
        [(b1.hash, b1)], k0⟩ = b2 :=
      lastBlock_flat d0 u0 ((c0 ++ [bk]) ++ [b1]) b2 _ k0
    have epass3 : passF H 3
        ⟨d0, u0, ((c0 ++ [bk]) ++ [b1]) ++ [b2],
          [(b2.hash, b2), (b1.hash, b1)], k0⟩
        [(b2.hash, b2), (b1.hash, b1)]
        = (false, ⟨d0, u0, ((c0 ++ [bk]) ++ [b1]) ++ [b2],
            [(b2.hash, b2), (b1.hash, b1)], k0⟩) := by
      rw [passF_skip H 2 _ b2.hash b2 _ (by rw [hlast3, h2_link]; exact hne3),
        passF_skip H 1 _ b1.hash b1 _ (by rw [hlast3, h1_link]; exact hne2)]
      exact passF_nil' H 0 _
    have eproc3 : processF H 4
        ⟨d0, u0, ((c0 ++ [bk]) ++ [b1]) ++ [b2],
          [(b2.hash, b2), (b1.hash, b1)], k0⟩
        = ⟨d0, u0, ((c0 ++ [bk]) ++ [b1]) ++ [b2],
            [(b2.hash, b2), (b1.hash, b1)], k0⟩ :=
      processF_of_false H 3 _ _ epass3
    have eadd2 : addBlockF H 5
        ⟨d0, u0, (c0 ++ [bk]) ++ [b1],
          [(b2.hash, b2), (b1.hash, b1)], k0⟩ b2
        = (true, ⟨d0, u0, ((c0 ++ [bk]) ++ [b1]) ++ [b2],
            [(b2.hash, b2), (b1.hash, b1)], k0⟩) := by
      rw [addBlockF_accept H 4 ⟨d0, u0, (c0 ++ [bk]) ++ [b1], [(b2.hash, b2), (b1.hash, b1)], k0⟩ b2 h2_val
        (by rw [hlast2]; exact h2_link) h2_pow]
      exact congrArg _ eproc3
    have epass2 : passF H 7
        ⟨d0, u0, (c0 ++ [bk]) ++ [b1],
          [(b2.hash, b2), (b1.hash, b1)], k0⟩
        [(b2.hash, b2), (b1.hash, b1)]
        = (true, ⟨d0, u0, ((c0 ++ [bk]) ++ [b1]) ++ [b2],
            [(b1.hash, b1)], k0⟩) :=
      passF_hit H 6 _ b2.hash b2 _ _ _
        (by rw [hlast2]; exact h2_link)
        (by
          have : addBlockF H 6
              ⟨d0, u0, (c0 ++ [bk]) ++ [b1],
                [(b2.hash, b2), (b1.hash, b1)], k0⟩ b2
              = (true, ⟨d0, u0, ((c0 ++ [bk]) ++ [b1]) ++ [b2],
                  [(b2.hash, b2), (b1.hash, b1)], k0⟩) := by
            rw [addBlockF_accept H 5 ⟨d0, u0, (c0 ++ [bk]) ++ [b1], [(b2.hash, b2), (b1.hash, b1)], k0⟩ b2 h2_val
              (by rw [hlast2]; exact h2_link) h2_pow]
            refine congrArg _ ?_
            have epass3' : passF H 4
                ⟨d0, u0, ((c0 ++ [bk]) ++ [b1]) ++ [b2],
                  [(b2.hash, b2), (b1.hash, b1)], k0⟩
                [(b2.hash, b2), (b1.hash, b1)]
                = (false, ⟨d0, u0, ((c0 ++ [bk]) ++ [b1]) ++ [b2],
                    [(b2.hash, b2), (b1.hash, b1)], k0⟩) := by
              rw [passF_skip H 3 _ b2.hash b2 _
                  (by rw [hlast3, h2_link]; exact hne3),
                passF_skip H 2 _ b1.hash b1 _
                  (by rw [hlast3, h1_link]; exact hne2)]
              exact passF_nil' H 1 _
            exact processF_of_false H 4 _ _ epass3'
          exact this)
        hdel2'
    have epass2' : passF H 6
        ⟨d0, u0, ((c0 ++ [bk]) ++ [b1]) ++ [b2],
          [(b1.hash, b1)], k0⟩
        [(b1.hash, b1)]
        = (false, ⟨d0, u0, ((c0 ++ [bk]) ++ [b1]) ++ [b2],
            [(b1.hash, b1)], k0⟩) := by
      rw [passF_skip H 5 _ b1.hash b1 _ (by rw [hlast4, h1_link]; exact hne2)]
      exact passF_nil' H 4 _
    have eadd1 : addBlockF H 9
        ⟨d0, u0, c0 ++ [bk], [(b2.hash, b2), (b1.hash, b1)], k0⟩ b1
        = (true, ⟨d0, u0, ((c0 ++ [bk]) ++ [b1]) ++ [b2],
            [(b1.hash, b1)], k0⟩) := by
      rw [addBlockF_accept H 8 ⟨d0, u0, c0 ++ [bk], [(b2.hash, b2), (b1.hash, b1)], k0⟩ b1 h1_val
        (by rw [hlast1]; exact h1_link) h1_pow]
      refine congrArg _ ?_
      rw [processF_of_true H 7 _ _ epass2]
      exact processF_of_false H 6 _ _ epass2'
    have epass1 : passF H 10
        ⟨d0, u0, c0 ++ [bk], [(b2.hash, b2), (b1.hash, b1)], k0⟩
        [(b2.hash, b2), (b1.hash, b1)]
        = (true, ⟨d0, u0, ((c0 ++ [bk]) ++ [b1]) ++ [b2], [], k0⟩) := by
      rw [passF_skip H 9 _ b2.hash b2 _
        (by rw [hlast1, h2_link]; exact fun hh => hne1 hh.symm)]
      exact passF_hit H 8 _ b1.hash b1 _ _ _
        (by rw [hlast1]; exact h1_link)
        (by
          have : addBlockF H 8
              ⟨d0, u0, c0 ++ [bk], [(b2.hash, b2), (b1.hash, b1)], k0⟩ b1
              = (true, ⟨d0, u0, ((c0 ++ [bk]) ++ [b1]) ++ [b2],
                  [(b1.hash, b1)], k0⟩) := by
            rw [addBlockF_accept H 7 ⟨d0, u0, c0 ++ [bk], [(b2.hash, b2), (b1.hash, b1)], k0⟩ b1 h1_val
              (by rw [hlast1]; exact h1_link) h1_pow]
            refine congrArg _ ?_
            have epass2a : passF H 6
                ⟨d0, u0, (c0 ++ [bk]) ++ [b1],
                  [(b2.hash, b2), (b1.hash, b1)], k0⟩
                [(b2.hash, b2), (b1.hash, b1)]
                = (true, ⟨d0, u0, ((c0 ++ [bk]) ++ [b1]) ++ [b2],
                    [(b1.hash, b1)], k0⟩) :=
              passF_hit H 5 _ b2.hash b2 _ _ _
                (by rw [hlast2]; exact h2_link) eadd2 hdel2'
            rw [processF_of_true H 6 _ _ epass2a]
            have epass2b : passF H 5
                ⟨d0, u0, ((c0 ++ [bk]) ++ [b1]) ++ [b2],
                  [(b1.hash, b1)], k0⟩
                [(b1.hash, b1)]
                = (false, ⟨d0, u0, ((c0 ++ [bk]) ++ [b1]) ++ [b2],
                    [(b1.hash, b1)], k0⟩) := by
              rw [passF_skip H 4 _ b1.hash b1 _
                  (by rw [hlast4, h1_link]; exact hne2)]
              exact passF_nil' H 3 _
            exact processF_of_false H 5 _ _ epass2b
          exact this)
        hdel1
    have epass1' : passF H 9
        ⟨d0, u0, ((c0 ++ [bk]) ++ [b1]) ++ [b2], [], k0⟩ []
        = (false, ⟨d0, u0, ((c0 ++ [bk]) ++ [b1]) ++ [b2], [], k0⟩) :=
      passF_nil' H 8 _
    have etop : Blockchain.addBlock H
        ⟨d0, u0, c0, [(b2.hash, b2), (b1.hash, b1)], k0⟩ bk
        = (true, ⟨d0, u0, ((c0 ++ [bk]) ++ [b1]) ++ [b2], [], k0⟩) := by
      show addBlockF H 12 ⟨d0, u0, c0, [(b2.hash, b2), (b1.hash, b1)], k0⟩ bk = _
      rw [addBlockF_accept H 11 ⟨d0, u0, c0, [(b2.hash, b2), (b1.hash, b1)], k0⟩ bk hk_val hk_conn hk_pow]
      refine congrArg _ ?_
      rw [processF_of_true H 10 _ _ epass1]
      exact processF_of_false H 9 _ _ epass1'
    rw [etop]
    refine ⟨rfl, ?_, rfl⟩
    show ((c0 ++ [bk]) ++ [b1]) ++ [b2] = c0 ++ [bk, b1, b2]
    simp

/-- C6 counterexample: the pending set contains the valid, correctly
linked blocks `B_{k+1}` and `B_{k+2}` — but also a competing valid child
`Bq` of `B_k` that was received first.  `add_block(B_k)` succeeds, yet the
drain picks `Bq`, the tip moves to `Bq`, and `B_{k+1}`, `B_{k+2}` are
neither in the main chain nor removed from the pending set. -/
theorem pending_drain_cex :
    Block.isValid drainH drainB1 = true ∧
    Block.isValid drainH drainB2 = true ∧
    ProofOfWork.validate drainH drainPre.difficulty drainB1 = true ∧
    ProofOfWork.validate drainH drainPre.difficulty drainB2 = true ∧
    drainB1.previous_hash = drainBk.hash ∧
    drainB2.previous_hash = drainB1.hash ∧
    ("B1", drainB1) ∈ drainPre.pending_blocks ∧
    ("B2", drainB2) ∈ drainPre.pending_blocks ∧
    (Blockchain.addBlock drainH drainPre drainBk).1 = true ∧
    drainB1 ∉ (Blockchain.addBlock drainH drainPre drainBk).2.chain ∧
    drainB2 ∉ (Blockchain.addBlock drainH drainPre drainBk).2.chain ∧
    ("B1", drainB1) ∈
      (Blockchain.addBlock drainH drainPre drainBk).2.pending_blocks ∧
    ("B2", drainB2) ∈
      (Blockchain.addBlock drainH drainPre drainBk).2.pending_blocks := by
  decide

/-- Witness for `pending_drain_exact` on a concrete two-entry pending
set. -/
theorem pending_drain_exact_witness :
    Block.isValid drainH drainBk = true ∧
    drainB1.previous_hash = drainBk.hash ∧
    drainB2.previous_hash = drainB1.hash ∧
    drainExactState.pending_blocks
      = [(drainB1.hash, drainB1), (drainB2.hash, drainB2)] ∧
    (Blockchain.addBlock drainH drainExactState drainBk).1 = true ∧
    (Blockchain.addBlock drainH drainExactState drainBk).2.chain
      = drainExactState.chain ++ [drainBk, drainB1, drainB2] ∧
    (Blockchain.addBlock drainH drainExactState drainBk).2.pending_blocks
      = [] :=
  ⟨by decide, by decide, by decide, by decide,
   (pending_drain_exact drainH drainExactState drainBk drainB1 drainB2
      (by decide) (by decide) (by decide) (by decide) (by decide)
      (by decide) (by decide) (by decide) (by decide) (by decide)
      (by decide) (by decide) (Or.inl rfl)).1,
   (pending_drain_exact drainH drainExactState drainBk drainB1 drainB2
      (by decide) (by decide) (by decide) (by decide) (by decide)
      (by decide) (by decide) (by decide) (by decide) (by decide)
      (by decide) (by decide) (Or.inl rfl)).2.1,
   (pending_drain_exact drainH drainExactState drainBk drainB1 drainB2
      (by decide) (by decide) (by decide) (by decide) (by decide)
      (by decide) (by decide) (by decide) (by decide) (by decide)
      (by decide) (by decide) (Or.inl rfl)).2.2⟩

end ClaimC6

section ClaimC1

theorem bytesToNat_cons_zero (t : List Nat) :
    Wallet.bytesToNat (0 :: t) = Wallet.bytesToNat t := by
  simp [Wallet.bytesToNat]

theorem bytesToNat_foldl_lt :
    ∀ (l : List Nat) (acc : Nat), (∀ b ∈ l, b < 256) →
      l.foldl (fun a b => a * 256 + b) acc < (acc + 1) * 256 ^ l.length
  | [], acc, _ => by simp
  | b :: t, acc, hb => by
      have ht : ∀ x ∈ t, x < 256 := fun x hx => hb x (List.mem_cons_of_mem b hx)
      have hblt : b < 256 := hb b (List.mem_cons_self b t)
      have ih := bytesToNat_foldl_lt t (acc * 256 + b) ht
      have hstep : (acc * 256 + b + 1) * 256 ^ t.length
          ≤ ((acc + 1) * 256) * 256 ^ t.length :=
        Nat.mul_le_mul_right _ (by omega)
      calc (b :: t).foldl (fun a b => a * 256 + b) acc
          = t.foldl (fun a b => a * 256 + b) (acc * 256 + b) := rfl
        _ < (acc * 256 + b + 1) * 256 ^ t.length := ih
        _ ≤ ((acc + 1) * 256) * 256 ^ t.length := hstep
        _ = (acc + 1) * 256 ^ (b :: t).length := by
            rw [List.length_cons, pow_succ]
            ring

theorem bytesToNat_lt (l : List Nat) (hb : ∀ b ∈ l, b < 256) :
    Wallet.bytesToNat l < 256 ^ l.length := by
  have := bytesToNat_foldl_lt l 0 hb
  simpa [Wallet.bytesToNat] using this

theorem bitLenF_le : ∀ (f n k : Nat), n < f → n < 2 ^ k →
    Wallet.bitLenF f n ≤ k
  | 0, n, _, hf, _ => absurd hf (by omega)
  | f + 1, n, k, hf, hk => by
      unfold Wallet.bitLenF
      split_ifs with h0
      · omega
      · have hk1 : 1 ≤ k := by
          by_contra hc
          push_neg at hc
          interval_cases k
          simp at hk
          omega
        obtain ⟨k', rfl⟩ : ∃ k', k = k' + 1 := ⟨k - 1, by omega⟩
        have hhalf : n / 2 < 2 ^ k' := by
          have : (2 : Nat) ^ (k' + 1) = 2 * 2 ^ k' := by ring
          rw [this] at hk
          omega
        have hfuel : n / 2 < f := by omega
        have := bitLenF_le f (n / 2) k' hfuel hhalf
        omega

theorem bitLength_le (n k : Nat) (h : n < 2 ^ k) :
    Wallet.bitLength n ≤ k :=
  bitLenF_le (n + 1) n k (by omega) h

theorem natToBytesBE_length (k n : Nat) :
    (Crypto.natToBytesBE k n).length = k := by
  simp [Crypto.natToBytesBE]

theorem charIndex_alphabet :
    ∀ d, d < 58 →
      Wallet.charIndex (Wallet.b58alphabet.getD d '1') Wallet.b58alphabet
        = some d := by
  decide

theorem leadOnes_chars :
    ∀ l : List Nat, ∀ c ∈ Wallet.leadOnes l, c = '1'
  | [], c, hc => by simp [Wallet.leadOnes] at hc
  | b :: r, c, hc => by
      unfold Wallet.leadOnes at hc
      split_ifs at hc with hb
      · rcases List.mem_cons.mp hc with h | h
        · exact h
        · exact leadOnes_chars r c h
      · simp at hc

theorem b58fold_ones :
    ∀ cs : List Char, (∀ c ∈ cs, c = '1') →
      cs.foldl
        (fun acc c =>
          match acc, Wallet.charIndex c Wallet.b58alphabet with
          | some v, some d => some (v * 58 + d)
          | _, _ => none) (some 0) = some 0
  | [], _ => rfl
  | c :: cs, hc => by
      have h1 : c = '1' := hc c (List.mem_cons_self c cs)
      subst h1
      have hidx : Wallet.charIndex '1' Wallet.b58alphabet = some 0 := by
        decide
      rw [List.foldl_cons]
      have hstep :
          (match (some 0 : Option Nat),
              Wallet.charIndex '1' Wallet.b58alphabet with
            | some v, some d => some (v * 58 + d)
            | _, _ => none) = some 0 := by
        rw [hidx]
      rw [hstep]
      exact b58fold_ones cs fun x hx => hc x (List.mem_cons_of_mem _ hx)

theorem b58fold_digits :
    ∀ (f v acc : Nat), v < 58 ^ f →
      (Wallet.b58encodeF f v).foldl
        (fun acc c =>
          match acc, Wallet.charIndex c Wallet.b58alphabet with
          | some v, some d => some (v * 58 + d)
          | _, _ => none) (some acc)
        = some (acc * 58 ^ (Wallet.b58encodeF f v).length + v)
  | 0, v, acc, hv => by
      have : v = 0 := by simpa using hv
      subst this
      simp [Wallet.b58encodeF]
  | f + 1, v, acc, hv => by
      by_cases h0 : v = 0
      · subst h0
        simp [Wallet.b58encodeF]
      · obtain ⟨w, rfl⟩ : ∃ w, v = w + 1 := ⟨v - 1, by omega⟩
        have henc : Wallet.b58encodeF (f + 1) (w + 1)
            = Wallet.b58encodeF f ((w + 1) / 58)
              ++ [Wallet.b58alphabet.getD ((w + 1) % 58) '1'] := rfl
        have hdiv : (w + 1) / 58 < 58 ^ f := by
          have h58 : (58 : Nat) ^ (f + 1) = 58 * 58 ^ f := by ring
          rw [h58] at hv
          omega
        have ih := b58fold_digits f ((w + 1) / 58) acc hdiv
        rw [henc, List.foldl_append, ih]
        have hmod : (w + 1) % 58 < 58 := Nat.mod_lt _ (by omega)
        have hidx := charIndex_alphabet ((w + 1) % 58) hmod
        rw [List.foldl_cons]
        have hstep :
            (match
                (some (acc * 58 ^ (Wallet.b58encodeF f ((w + 1) / 58)).length
                  + (w + 1) / 58) : Option Nat),
                Wallet.charIndex (Wallet.b58alphabet.getD ((w + 1) % 58) '1')
                  Wallet.b58alphabet with
              | some u, some d => some (u * 58 + d)
              | _, _ => none)
            = some ((acc * 58 ^ (Wallet.b58encodeF f ((w + 1) / 58)).length
                + (w + 1) / 58) * 58 + (w + 1) % 58) := by
          rw [hidx]
        rw [hstep, List.foldl_nil]
        congr 1
        rw [List.length_append, List.length_singleton, pow_succ]
        have hdm : (w + 1) / 58 * 58 + (w + 1) % 58 = w + 1 := by omega
        calc (acc * 58 ^ (Wallet.b58encodeF f ((w + 1) / 58)).length
              + (w + 1) / 58) * 58 + (w + 1) % 58
            = acc * (58 ^ (Wallet.b58encodeF f ((w + 1) / 58)).length * 58)
              + ((w + 1) / 58 * 58 + (w + 1) % 58) := by ring
          _ = acc * (58 ^ (Wallet.b58encodeF f ((w + 1) / 58)).length * 58)
              + (w + 1) := by rw [hdm]

/-- C1: evaluation of the buggy code path.  For every pair of digest
functions with the right output shapes (RIPEMD-160: 20 bytes, SHA-256: 32
bytes — which the real digests have) and every public key byte string,
`_is_valid_address(_generate_address(pub))` returns **false**: the decoder
recovers the 25-byte value as an integer, but
`value.to_bytes((value.bit_length()+7)//8)` drops the leading `0x00`
version byte, so the reconstructed byte string has at most 24 bytes and
the `len != 25` check rejects every derived address.  The claimed
round-trip (`validate(derive(pk))` true) is clearly the intent of the spec —
`create_transaction` calls `_is_valid_address(recipient)` and would
otherwise reject every legitimate address — so this is a code bug. -/
theorem generated_address_never_validates
    (sha256B ripemd160B : List Nat → List Nat) (public_bytes : List Nat)
    (hrlen : (ripemd160B (sha256B public_bytes)).length = 20)
    (hrbytes : ∀ b ∈ ripemd160B (sha256B public_bytes), b < 256)
    (hslen : ∀ l, (sha256B l).length = 32)
    (hsbytes : ∀ l, ∀ b ∈ sha256B l, b < 256) :
    Wallet.isValidAddress sha256B
      (Wallet.generateAddress sha256B ripemd160B public_bytes) = false := by
  have hclen : ((sha256B (sha256B
      (0 :: ripemd160B (sha256B public_bytes)))).take 4).length = 4 := by
    rw [List.length_take, hslen]
    omega
  have htail : (ripemd160B (sha256B public_bytes)
      ++ (sha256B (sha256B
          (0 :: ripemd160B (sha256B public_bytes)))).take 4).length = 24 := by
    rw [List.length_append, hrlen, hclen]
  have htailbytes : ∀ b ∈ ripemd160B (sha256B public_bytes)
      ++ (sha256B (sha256B
          (0 :: ripemd160B (sha256B public_bytes)))).take 4, b < 256 := by
    intro b hb
    rcases List.mem_append.mp hb with h | h
    · exact hrbytes b h
    · exact hsbytes _ b (List.take_subset 4 _ h)
  have hvlt : Wallet.bytesToNat
      (ripemd160B (sha256B public_bytes)
        ++ (sha256B (sha256B
            (0 :: ripemd160B (sha256B public_bytes)))).take 4) < 2 ^ 192 := by
    have := bytesToNat_lt _ htailbytes
    rw [htail] at this
    calc Wallet.bytesToNat _ < 256 ^ 24 := this
      _ = 2 ^ 192 := by norm_num
  have hv58 : Wallet.bytesToNat
      (ripemd160B (sha256B public_bytes)
        ++ (sha256B (sha256B
            (0 :: ripemd160B (sha256B public_bytes)))).take 4) < 58 ^ 64 :=
    lt_trans hvlt (by norm_num)
  have hdec : Wallet.b58decodeVal
      (Wallet.generateAddress sha256B ripemd160B public_bytes)
      = some (Wallet.bytesToNat
          (ripemd160B (sha256B public_bytes)
            ++ (sha256B (sha256B
                (0 :: ripemd160B (sha256B public_bytes)))).take 4)) := by
    simp only [Wallet.generateAddress, Wallet.b58decodeVal]
    rw [List.cons_append, List.foldl_append]
    rw [b58fold_ones _ (leadOnes_chars _)]
    rw [bytesToNat_cons_zero]
    rw [b58fold_digits 64 _ 0 hv58]
    simp
  have hbits : Wallet.bitLength (Wallet.bytesToNat
      (ripemd160B (sha256B public_bytes)
        ++ (sha256B (sha256B
            (0 :: ripemd160B (sha256B public_bytes)))).take 4)) ≤ 192 :=
    bitLength_le _ 192 hvlt
  have hcond : (Crypto.natToBytesBE
      ((Wallet.bitLength (Wallet.bytesToNat
        (ripemd160B (sha256B public_bytes)
          ++ (sha256B (sha256B
              (0 :: ripemd160B (sha256B public_bytes)))).take 4)) + 7) / 8)
      (Wallet.bytesToNat
        (ripemd160B (sha256B public_bytes)
          ++ (sha256B (sha256B
              (0 :: ripemd160B (sha256B public_bytes)))).take 4))).length
      ≠ 25 := by
    rw [natToBytesBE_length]
    omega
  simp only [Wallet.isValidAddress, hdec]
  rw [if_pos hcond]

/-- Witness for `generated_address_never_validates` at concrete digest
stand-ins with the right output shapes. -/
theorem generated_address_never_validates_witness :
    ((((fun _ => List.replicate 20 7) : List Nat → List Nat)
        (((fun _ => List.replicate 32 9) : List Nat → List Nat)
          [2])).length = 20) ∧
    Wallet.isValidAddress (fun _ => List.replicate 32 9)
      (Wallet.generateAddress (fun _ => List.replicate 32 9)
        (fun _ => List.replicate 20 7) [2]) = false :=
  ⟨by decide,
   generated_address_never_validates (fun _ => List.replicate 32 9)
     (fun _ => List.replicate 20 7) [2] (by decide)
     (by intro b hb; simp at hb; omega) (fun l => by simp)
     (fun l b hb => by simp at hb; omega)⟩

end ClaimC1

end BlockChain
